import Mathlib

/-!
# Yandex Disk backend (`yandex/yandex.go`): a shallow embedding

The backend adapts the flat, paginated Yandex Disk REST store to rclone's
filesystem contract.  This file embeds the parts of `yandex.go` that deal with
path resolution (`Fs.setRoot`, `Object.remotePath`), flat listing (`Fs.list`),
metadata resolution (`Object.setMetaData`), directory removal
(`Fs.purgeCheck`), upload (`Object.Update`) and directory creation
(`mkDirExecute`, `mkDirFullPath`).

Conventions of the embedding:

* a Go `string` is a list of characters (`Str`), the unit of comparison being
  the character where Go compares bytes (the two agree on well-formed UTF-8);
  the string functions of the Go standard library that the code calls
  (`strings.Trim`, `strings.HasPrefix`, `strings.TrimPrefix`,
  `strings.TrimSuffix`, `strings.Split`, `filepath.Base` with the Unix
  separator) are written out after their documented behaviour;
* the REST client `yandex.Client` is a collaborator: every method is a field of
  `Client W`, a state-passing function over an arbitrary remote state `W`;
* each call of a client method and each invocation of a listing handler is
  appended to a log carried next to the remote state (`World.log`), so that
  "which calls were issued, in which order" can be stated;
* `uint32` arithmetic is arithmetic on `Nat` reduced modulo `2 ^ 32`;
* `time.Parse` and `Time.Format` are parameters (`parse`, `format`);
* loops that the source writes as `for { ... }` take a fuel argument and return
  `none` as outcome when the fuel runs out.
-/

namespace Yandex

/-! ## Strings -/

/-- A Go string. -/
abbrev Str := List Char

/-- Go `strings.HasPrefix s p`. -/
def HasPrefix (s p : Str) : Bool := p.isPrefixOf s

/-- Go `strings.TrimPrefix s p`: `s` without the leading `p`, or `s` itself. -/
def TrimPrefix (s p : Str) : Str := if HasPrefix s p then s.drop p.length else s

/-- Go `strings.HasSuffix s p`. -/
def HasSuffix (s p : Str) : Bool := p.isSuffixOf s

/-- Go `strings.TrimSuffix s p`: `s` without the trailing `p`, or `s` itself. -/
def TrimSuffix (s p : Str) : Str :=
  if HasSuffix s p then s.take (s.length - p.length) else s

/-- Go `strings.Trim s "/"`: all leading and trailing slashes removed. -/
def TrimSlash (s : Str) : Str :=
  (s.rdropWhile (fun c => c == '/')).dropWhile (fun c => c == '/')

/-- Go `strings.Split s "/"`: the pieces between slashes, empty ones included;
the empty string splits into one empty piece. -/
def SplitSlash : Str → List Str
  | [] => [[]]
  | c :: cs =>
    if c == '/' then [] :: SplitSlash cs
    else
      match SplitSlash cs with
      | [] => [[c]]
      | piece :: pieces => (c :: piece) :: pieces

/-- Go `filepath.Base path` with separator `/`: the last element of the path,
trailing slashes removed first; `.` for the empty path and `/` for a path of
slashes only. -/
def filepathBase (path : Str) : Str :=
  if path = [] then ['.']
  else
    let stripped := path.rdropWhile (fun c => c == '/')
    let last := stripped.rtakeWhile (fun c => c != '/')
    if last = [] then ['/'] else last

/-! ## Data model -/

/-- A Go `error` value. Errors raised by collaborators (the REST client, the
listing handler) carry an identifier; `new` and `wrap` are `errors.New` and
`errors.Wrap` of `github.com/pkg/errors`. -/
inductive GoError where
  | ext (id : Nat)
  | new (msg : Str)
  | wrap (cause : GoError) (msg : Str)
  deriving DecidableEq, Repr

/-- A value of type `interface{}` as found in `CustomProperties`. Only the
distinction nil / string / anything else is observed by the code. -/
inductive AnyValue where
  | nil
  | str (s : Str)
  | bool (b : Bool)
  | num (n : Int)
  | composite
  deriving DecidableEq, Repr

/-- Modelled from the spec: the type `yandex.ResourceInfoResponse` is declared in
the package `yandex/api`, outside `yandex.go`; the specification gives it as
`{kind, size, nativeModTime, customProperties, children[]}`. These are the
fields that `yandex.go` reads, under the names it reads them by.
`CustomProperties` is the Go map as an association list; `Embedded` is
`Embedded.Items`, the immediate children. -/
inductive ResourceInfoResponse where
  | mk (Name Path ResourceType Modified Md5 : Str) (Size : Nat)
      (CustomProperties : List (Str × AnyValue))
      (Embedded : List ResourceInfoResponse)

namespace ResourceInfoResponse

def Name : ResourceInfoResponse → Str
  | mk n _ _ _ _ _ _ _ => n

def Path : ResourceInfoResponse → Str
  | mk _ p _ _ _ _ _ _ => p

def ResourceType : ResourceInfoResponse → Str
  | mk _ _ t _ _ _ _ _ => t

def Modified : ResourceInfoResponse → Str
  | mk _ _ _ m _ _ _ _ => m

def Md5 : ResourceInfoResponse → Str
  | mk _ _ _ _ h _ _ _ => h

def Size : ResourceInfoResponse → Nat
  | mk _ _ _ _ _ s _ _ => s

def CustomProperties : ResourceInfoResponse → List (Str × AnyValue)
  | mk _ _ _ _ _ _ c _ => c

def Embedded : ResourceInfoResponse → List ResourceInfoResponse
  | mk _ _ _ _ _ _ _ e => e

end ResourceInfoResponse

/-- Go map indexing `m[key]` on a `map[string]interface{}`: the stored value,
or nil when the key is absent. -/
def mapIndex (m : List (Str × AnyValue)) (key : Str) : AnyValue :=
  match m.lookup key with
  | some v => v
  | none => AnyValue.nil

/-- One observable action: a call of a client method or an invocation of the
listing handler (with what it returned). -/
inductive Event where
  | mkdir (path : Str)
  | flatList (offset limit : Nat)
  | info (path : Str)
  | delete (path : Str) (permanently : Bool)
  | upload (path : Str) (overwrite : Bool)
  | setProp (path key value : Str)
  | handler (name : Str) (item : ResourceInfoResponse) (isDirectory : Bool)
      (ret : Option GoError)

/-- The remote state together with the log of the actions performed so far. -/
structure World (W : Type) where
  st : W
  log : List Event

/-- Modelled from the spec: the REST client `yandex.Client` lives in the package
`yandex/api`, outside `yandex.go`; every function below takes it as a
parameter. These are the methods that `yandex.go` calls, with the shapes the
specification lists for the remote API client: `Mkdir` returns status code,
error body and error; the request builders followed by `Exec`
(`NewFlatFileListRequest`, `NewResourceInfoRequest`) are one call each;
`ParseAPIError` maps an error body to an error code. -/
structure Client (W : Type) where
  Mkdir : Str → W → (Int × Str × Option GoError) × W
  ParseAPIError : Str → Str
  FlatFileList : Nat → Nat → W → Except GoError (List ResourceInfoResponse) × W
  ResourceInfo : Str → W → Except GoError ResourceInfoResponse × W
  Delete : Str → Bool → W → Option GoError × W
  Upload : List Nat → Str → Bool → W → Option GoError × W
  SetCustomProperty : Str → Str → Str → W → Option GoError × W

/-- Go `Fs`. The field `mkdircache` is never read or written and is left out. -/
structure Fs (W : Type) where
  name : Str
  yd : Client W
  root : Str
  diskRoot : Str

/-- Go `Object`: `bytes` is a `uint64`, `modTime` a `time.Time`. -/
structure Object (W T : Type) where
  fs : Fs W
  remote : Str
  md5sum : Str
  bytes : Nat
  modTime : T

/-- Go `listFn`: the handler of a listed entry, as a state-passing function. -/
abbrev listFn (W : Type) :=
  Str → ResourceInfoResponse → Bool → W → Option GoError × W

/-! ## Path resolution -/

/-- Go `Fs.setRoot`. -/
def Fs.setRoot {W : Type} (f : Fs W) (root : Str) : Fs W :=
  let root1 := TrimSlash root
  let diskRoot :=
    if root1 = [] then "disk:/".toList
    else "disk:/".toList ++ root1 ++ "/".toList
  { f with root := root1, diskRoot := diskRoot }

/-- Go `Object.remotePath`. -/
def Object.remotePath {W T : Type} (o : Object W T) : Str :=
  o.fs.diskRoot ++ o.remote

/-! ## Logged calls -/

/-- Logged call of `client.Mkdir path`. -/
def Client.callMkdir {W : Type} (c : Client W) (path : Str) (w : World W) :
    (Int × Str × Option GoError) × World W :=
  let r := c.Mkdir path w.st
  (r.1, ⟨r.2, w.log ++ [Event.mkdir path]⟩)

/-- Logged call of `client.NewFlatFileListRequest(opt).Exec()` with
`*opt.Offset = offset` and `*opt.Limit = limit`. -/
def Client.callFlatFileList {W : Type} (c : Client W) (offset limit : Nat) (w : World W) :
    Except GoError (List ResourceInfoResponse) × World W :=
  let r := c.FlatFileList offset limit w.st
  (r.1, ⟨r.2, w.log ++ [Event.flatList offset limit]⟩)

/-- Logged call of `client.NewResourceInfoRequest(path, opt).Exec()`. -/
def Client.callResourceInfo {W : Type} (c : Client W) (path : Str) (w : World W) :
    Except GoError ResourceInfoResponse × World W :=
  let r := c.ResourceInfo path w.st
  (r.1, ⟨r.2, w.log ++ [Event.info path]⟩)

/-- Logged call of `client.Delete(path, permanently)`. -/
def Client.callDelete {W : Type} (c : Client W) (path : Str) (permanently : Bool)
    (w : World W) : Option GoError × World W :=
  let r := c.Delete path permanently w.st
  (r.1, ⟨r.2, w.log ++ [Event.delete path permanently]⟩)

/-- Logged call of `client.Upload(in, path, overwrite)`. -/
def Client.callUpload {W : Type} (c : Client W) (input : List Nat) (path : Str)
    (overwrite : Bool) (w : World W) : Option GoError × World W :=
  let r := c.Upload input path overwrite w.st
  (r.1, ⟨r.2, w.log ++ [Event.upload path overwrite]⟩)

/-- Logged call of `client.SetCustomProperty(path, key, value)`. -/
def Client.callSetCustomProperty {W : Type} (c : Client W) (path key value : Str)
    (w : World W) : Option GoError × World W :=
  let r := c.SetCustomProperty path key value w.st
  (r.1, ⟨r.2, w.log ++ [Event.setProp path key value]⟩)

/-- Logged invocation `fn(name, &item, isDirectory)`, with its return value. -/
def callHandler {W : Type} (fn : listFn W) (name : Str) (item : ResourceInfoResponse)
    (isDirectory : Bool) (w : World W) : Option GoError × World W :=
  let r := fn name item isDirectory w.st
  (r.1, ⟨r.2, w.log ++ [Event.handler name item isDirectory r.1]⟩)

/-! ## Flat listing -/

/-- The `prefix` variable of `Fs.list`: `diskRoot`, followed by `dir + "/"` when
`dir` is not empty. -/
def Fs.listPrefix {W : Type} (f : Fs W) (dir : Str) : Str :=
  if dir ≠ [] then f.diskRoot ++ (dir ++ "/".toList) else f.diskRoot

/-- The inner loop of `Fs.list` (`for _, item := range info.Items`): the entries
of one page are filtered by `pfx` and handed to `fn`; the first error returned
by `fn` ends the loop and is returned. -/
def Fs.listItems {W : Type} (f : Fs W) (pfx : Str) (fn : listFn W) :
    List ResourceInfoResponse → World W → Option GoError × World W
  | [], w => (none, w)
  | item :: rest, w =>
    if HasPrefix item.Path pfx then
      let name := TrimPrefix item.Path f.diskRoot
      match callHandler fn name item false w with
      | (some err, w1) => (some err, w1)
      | (none, w1) => Fs.listItems f pfx fn rest w1
    else Fs.listItems f pfx fn rest w

/-- The outer loop of `Fs.list` (`for { ... }`), with `limit` and `offset` the
`uint32` variables of the source. The outcome is `none` when the fuel is used
up before the loop is left, `some r` when the function returns `r`. -/
def Fs.listPages {W : Type} (f : Fs W) (limit : Nat) (pfx : Str) (fn : listFn W) :
    Nat → Nat → World W → Option (Option GoError) × World W
  | 0, _, w => (none, w)
  | fuel + 1, offset, w =>
    match f.yd.callFlatFileList offset limit w with
    | (Except.error err, w1) => (some (some err), w1)
    | (Except.ok items, w1) =>
      let itemsCount := items.length % 2 ^ 32
      match Fs.listItems f pfx fn items w1 with
      | (some err, w2) => (some (some err), w2)
      | (none, w2) =>
        let offset1 := (offset + itemsCount) % 2 ^ 32
        if itemsCount < limit then (some none, w2)
        else Fs.listPages f limit pfx fn fuel offset1 w2

/-- Go `Fs.list` with the page size as a parameter. -/
def Fs.listWith {W : Type} (f : Fs W) (limit : Nat) (dir : Str) (fn : listFn W)
    (fuel : Nat) (w : World W) : Option (Option GoError) × World W :=
  Fs.listPages f limit (f.listPrefix dir) fn fuel 0 w

/-- Go `Fs.list`: the page size is 1000. -/
def Fs.list {W : Type} (f : Fs W) (dir : Str) (fn : listFn W) (fuel : Nat) (w : World W) :
    Option (Option GoError) × World W :=
  f.listWith 1000 dir fn fuel w

/-! ## Metadata -/

/-- Go `Object.setMetaData`; `parse s` is `time.Parse(time.RFC3339Nano, s)`,
`none` when it returns an error. -/
def Object.setMetaData {W T : Type} (parse : Str → Option T) (o : Object W T)
    (info : ResourceInfoResponse) : Object W T :=
  let o1 := { o with bytes := info.Size, md5sum := info.Md5 }
  match mapIndex info.CustomProperties "rclone_modified".toList with
  | AnyValue.nil =>
    match parse info.Modified with
    | none => o1
    | some t => { o1 with modTime := t }
  | AnyValue.str modtimestr =>
    match parse modtimestr with
    | none => o1
    | some t => { o1 with modTime := t }
  | _ => o1

/-! ## Directory removal -/

/-- Go `Fs.purgeCheck`. -/
def Fs.purgeCheck {W : Type} (f : Fs W) (check : Bool) (w : World W) :
    Option GoError × World W :=
  if check then
    match f.yd.callResourceInfo f.diskRoot w with
    | (Except.error err, w1) => (some (GoError.wrap err "rmdir failed".toList), w1)
    | (Except.ok resp, w1) =>
      if resp.Embedded.length ≠ 0 then
        (some (GoError.new "rmdir failed: directory not empty".toList), w1)
      else f.yd.callDelete f.diskRoot true w1
  else f.yd.callDelete f.diskRoot true w

/-- Go `Fs.Rmdir`. -/
def Fs.Rmdir {W : Type} (f : Fs W) (w : World W) : Option GoError × World W :=
  f.purgeCheck true w

/-- Go `Fs.Purge`. -/
def Fs.Purge {W : Type} (f : Fs W) (w : World W) : Option GoError × World W :=
  f.purgeCheck false w

/-! ## Directory creation -/

/-- Go `mkDirExecute`. -/
def mkDirExecute {W : Type} (client : Client W) (path : Str) (w : World W) :
    (Int × Str × Option GoError) × World W :=
  match client.callMkdir path w with
  | ((statusCode, jsonErrorString, err), w1) =>
    if statusCode = 409 then ((statusCode, jsonErrorString, err), w1)
    else if statusCode = 201 then ((statusCode, jsonErrorString, err), w1)
    else
      match err with
      | some e =>
        ((statusCode, jsonErrorString,
          some (GoError.wrap e "failed to create folder".toList)), w1)
      | none => ((0, [], none), w1)

/-- The loop of `mkDirFullPath` over `dirs`, with `mkdirpath` the path built so
far; the result of each `mkDirExecute` is dropped. -/
def mkDirSegments {W : Type} (client : Client W) : List Str → Str → World W → World W
  | [], _, w => w
  | element :: rest, mkdirpath, w =>
    if element ≠ [] then
      let mkdirpath1 := mkdirpath ++ (element ++ "/".toList)
      mkDirSegments client rest mkdirpath1 (mkDirExecute client mkdirpath1 w).2
    else mkDirSegments client rest mkdirpath w

/-- The `dirString` of `mkDirFullPath`: the path without its base name and
without the leading `disk:/`. -/
def dirString (path : Str) : Str :=
  TrimPrefix (TrimSuffix path (filepathBase path)) "disk:/".toList

/-- Go `mkDirFullPath`. -/
def mkDirFullPath {W : Type} (client : Client W) (path : Str) (w : World W) :
    Option GoError × World W :=
  match mkDirExecute client (dirString path) w with
  | ((_, jsonErrorString, some _), w1) =>
    let er2 := client.ParseAPIError jsonErrorString
    if er2 ≠ "DiskPathPointsToExistentDirectoryError".toList then
      (none, mkDirSegments client (SplitSlash (dirString path)) "/".toList w1)
    else (none, w1)
  | ((_, _, none), w1) => (none, w1)

/-- Go `Fs.Mkdir`. -/
def Fs.Mkdir {W : Type} (f : Fs W) (w : World W) : Option GoError × World W :=
  mkDirFullPath f.yd f.diskRoot w

/-! ## Upload -/

/-- What `Object.Update` reads of its `src fs.ObjectInfo`: `Size()` is an
`int64`. -/
structure ObjectInfo (T : Type) where
  Remote : Str
  Size : Int
  ModTime : T

/-- Go `Object.SetModTime`; `format t` is `t.Format(time.RFC3339Nano)`. -/
def Object.SetModTime {W T : Type} (format : T → Str) (o : Object W T) (modTime : T)
    (w : World W) : Option GoError × World W :=
  let remote := o.remotePath
  o.fs.yd.callSetCustomProperty remote "rclone_modified".toList (format modTime) w

/-- Go `Object.Update`: returns the error and the object as it is afterwards.
`uint64(size)` is `size` modulo `2 ^ 64`. -/
def Object.Update {W T : Type} (format : T → Str) (o : Object W T) (input : List Nat)
    (src : ObjectInfo T) (w : World W) : (Option GoError × Object W T) × World W :=
  let size := src.Size
  let modTime := src.ModTime
  let remote := o.remotePath
  match mkDirFullPath o.fs.yd remote w with
  | (some err1, w1) => ((some err1, o), w1)
  | (none, w1) =>
    match o.fs.yd.callUpload input remote true w1 with
    | (none, w2) =>
      let o1 := { o with bytes := (size % 2 ^ 64).toNat, modTime := modTime, md5sum := [] }
      let r := o1.SetModTime format modTime w2
      ((r.1, o1), r.2)
    | (some err, w2) => ((some err, o), w2)

/-! ## Reading the log -/

/-- The handler invocations of a log, in order: name and entry passed. -/
def handlerCalls : List Event → List (Str × ResourceInfoResponse)
  | [] => []
  | Event.handler name item _ _ :: evs => (name, item) :: handlerCalls evs
  | _ :: evs => handlerCalls evs

/-- The page requests of a log, in order: offset and limit sent. -/
def pageRequests : List Event → List (Nat × Nat)
  | [] => []
  | Event.flatList offset limit :: evs => (offset, limit) :: pageRequests evs
  | _ :: evs => pageRequests evs

/-- The handler invocations of a log that returned an error. -/
def handlerErrors : List Event → List GoError
  | [] => []
  | Event.handler _ _ _ (some e) :: evs => e :: handlerErrors evs
  | _ :: evs => handlerErrors evs

/-- The `SetCustomProperty` calls of a log, in order. -/
def setPropCalls : List Event → List (Str × Str × Str)
  | [] => []
  | Event.setProp path key value :: evs => (path, key, value) :: setPropCalls evs
  | _ :: evs => setPropCalls evs

/-- The `Delete` calls of a log, in order. -/
def deleteCalls : List Event → List (Str × Bool)
  | [] => []
  | Event.delete path permanently :: evs => (path, permanently) :: deleteCalls evs
  | _ :: evs => deleteCalls evs

/-! ## Stores and values used in the statements -/

/-- A synthetic store of `N` entries `entry 0 .. entry (N-1)`: a page request at
`offset` with `limit` is answered with the entries
`offset .. min (offset + limit) N - 1`, and the remote state is left alone. -/
def syntheticStore {W : Type} (N : Nat) (entry : Nat → ResourceInfoResponse) :
    Nat → Nat → W → Except GoError (List ResourceInfoResponse) × W :=
  fun offset limit s =>
    (Except.ok ((List.range' offset (min (offset + limit) N - offset)).map entry), s)

/-- The log of one page request at `offset` on the synthetic store, when every
entry is handed to the handler and accepted: the request, then one handler
invocation per entry of the page. -/
def pageEvents (diskRoot : Str) (N limit : Nat) (entry : Nat → ResourceInfoResponse)
    (offset : Nat) : List Event :=
  Event.flatList offset limit ::
    (List.range' offset (min (offset + limit) N - offset)).map
      (fun i => Event.handler (TrimPrefix (entry i).Path diskRoot) (entry i) false none)

/-- The log of `k` consecutive page requests on the synthetic store, the first
at `offset`, each `limit` further than the one before. -/
def storeEvents (diskRoot : Str) (N limit : Nat) (entry : Nat → ResourceInfoResponse) :
    Nat → Nat → List Event
  | 0, _ => []
  | k + 1, offset =>
    pageEvents diskRoot N limit entry offset ++
      storeEvents diskRoot N limit entry k (offset + limit)

/-- The cumulative prefixes of the segments `s1 .. sn`, as the specification
words them: `/s1/`, `/s1/s2/`, ..., `/s1/.../sn/`. -/
def cumulativePrefixes (segs : List Str) : List Str :=
  (List.range segs.length).map
    (fun i => "/".toList ++ ((segs.take (i + 1)).map (fun seg => seg ++ "/".toList)).flatten)

/-- The paths that the loop of `mkDirFullPath` builds from `mkdirpath` for the
non-empty segments `segs`, in order. -/
def cumulativeFrom (mkdirpath : Str) : List Str → List Str
  | [] => []
  | seg :: segs =>
    (mkdirpath ++ (seg ++ "/".toList)) :: cumulativeFrom (mkdirpath ++ (seg ++ "/".toList)) segs

/-- A client over the trivial remote state whose answers are fixed: `mk` answers
`Mkdir`, `pages` the page requests, `inf` the info request, `del`, `up` and
`sp` the delete, upload and set-property calls; `ParseAPIError` reads the error
body as the error code. -/
def scriptedClient (mk : Str → Int × Str × Option GoError)
    (pages : Nat → Nat → List ResourceInfoResponse)
    (inf : Except GoError ResourceInfoResponse) (del up sp : Option GoError) : Client Unit :=
  { Mkdir := fun path s => (mk path, s)
    ParseAPIError := fun body => body
    FlatFileList := fun offset limit s => (Except.ok (pages offset limit), s)
    ResourceInfo := fun _ s => (inf, s)
    Delete := fun _ _ s => (del, s)
    Upload := fun _ _ _ s => (up, s)
    SetCustomProperty := fun _ _ _ s => (sp, s) }

/-- A file entry with the given path and nothing else set. -/
def fileEntry (path : Str) : ResourceInfoResponse :=
  ResourceInfoResponse.mk [] path "file".toList [] [] 0 [] []

/-- An entry with the given `Modified` field and custom properties. -/
def timedEntry (modified : Str) (props : List (Str × AnyValue)) : ResourceInfoResponse :=
  ResourceInfoResponse.mk [] [] "file".toList modified [] 0 props []

/-- A directory entry with the given children. -/
def dirEntry (children : List ResourceInfoResponse) : ResourceInfoResponse :=
  ResourceInfoResponse.mk [] "disk:/".toList "dir".toList [] [] 0 [] children

/-- A stand-in for `time.Parse(time.RFC3339Nano, s)` with times as Unix seconds:
it knows two timestamps, on which it agrees with `time.Parse`, and rejects every
other string. -/
def exampleParse (s : Str) : Option Nat :=
  if s = "2016-01-01T00:00:00Z".toList then some 1451606400
  else if s = "2017-06-30T12:00:00Z".toList then some 1498824000
  else none

/-- A stand-in for `t.Format(time.RFC3339Nano)` on the two times of
`exampleParse`. -/
def exampleFormat (t : Nat) : Str :=
  if t = 1451606400 then "2016-01-01T00:00:00Z".toList
  else if t = 1498824000 then "2017-06-30T12:00:00Z".toList
  else []

/-- A handler that accepts every entry. -/
def acceptAll : listFn Unit := fun _ _ _ s => (none, s)

/-- A handler that rejects the entry named `stop` with error `e` and accepts
every other entry. -/
def rejectAt (stop : Str) (e : GoError) : listFn Unit :=
  fun name _ _ s => if name = stop then (some e, s) else (none, s)

/-- A client whose store is empty and whose calls all succeed, with `Mkdir`
answering 201. -/
def quietClient : Client Unit :=
  scriptedClient (fun _ => (201, [], none)) (fun _ _ => []) (Except.ok (dirEntry []))
    none none none

/-- A client that answers every page request with `pages offset limit` and whose
other calls all succeed. -/
def pagedClient (pages : Nat → Nat → List ResourceInfoResponse) : Client Unit :=
  scriptedClient (fun _ => (201, [], none)) pages (Except.ok (dirEntry [])) none none none

/-- A client over the synthetic store of `N` entries. -/
def storeClient (N : Nat) (entry : Nat → ResourceInfoResponse) : Client Unit :=
  pagedClient (fun offset limit =>
    (List.range' offset (min (offset + limit) N - offset)).map entry)

/-- The `i`-th entry of the example stores: a file directly under `disk:/`,
named after `i`. -/
def numberedEntry (i : Nat) : ResourceInfoResponse :=
  fileEntry ("disk:/f".toList ++ Nat.toDigits 10 i)

/-- A client on an empty root directory whose delete call fails with `e`. -/
def deleteFailsClient (e : GoError) : Client Unit :=
  scriptedClient (fun _ => (201, [], none)) (fun _ _ => []) (Except.ok (dirEntry []))
    (some e) none none

/-- A client whose `Mkdir` always fails with status 404 and the error code
`DiskNotFoundError`. -/
def mkdirFailsClient : Client Unit :=
  scriptedClient (fun _ => (404, "DiskNotFoundError".toList, some (GoError.ext 1)))
    (fun _ _ => []) (Except.ok (dirEntry [])) none none none

/-- An `Fs` on `client` rooted at `root`, as `NewFs` sets it up. -/
def fsAt {W : Type} (client : Client W) (root : Str) : Fs W :=
  Fs.setRoot { name := [], yd := client, root := [], diskRoot := [] } root

/-- The empty world: trivial remote state, nothing logged. -/
def emptyWorld : World Unit := ⟨(), []⟩

/-! # Theorems -/

/-! ## Path resolution -/

theorem TrimSlash_decompose (s : Str) :
    ∃ a b, s = List.replicate a '/' ++ TrimSlash s ++ List.replicate b '/' := by
  have h1 : ∀ l : Str, (∀ x ∈ l, (x == '/') = true) → l = List.replicate l.length '/' := by
    intro l hl
    exact List.eq_replicate_iff.mpr ⟨rfl, fun x hx => by simpa using hl x hx⟩
  refine ⟨(List.takeWhile (fun c => c == '/') (s.rdropWhile (fun c => c == '/'))).length,
    (s.rtakeWhile (fun c => c == '/')).length, ?_⟩
  have h2 : ∀ x ∈ List.takeWhile (fun c => c == '/') (s.rdropWhile (fun c => c == '/')),
      (x == '/') = true := by
    intro x hx
    have := List.mem_takeWhile_imp hx
    simpa using this
  have h3 : ∀ x ∈ s.rtakeWhile (fun c => c == '/'), (x == '/') = true := by
    intro x hx
    have := List.mem_rtakeWhile_imp hx
    simpa using this
  rw [← h1 _ h2, ← h1 _ h3]
  unfold TrimSlash
  rw [List.takeWhile_append_dropWhile]
  simp [List.rdropWhile, List.rtakeWhile, ← List.reverse_append]

theorem TrimSlash_head (s : Str) : (TrimSlash s).head? ≠ some '/' := by
  unfold TrimSlash
  have h := List.head?_dropWhile_not (fun c => c == '/') (s.rdropWhile (fun c => c == '/'))
  intro hc
  rw [hc] at h
  simp at h

theorem TrimSlash_getLast (s : Str) : (TrimSlash s).getLast? ≠ some '/' := by
  intro hc
  have hne : TrimSlash s ≠ [] := by
    intro h0; rw [h0] at hc; simp at hc
  have hsuf : TrimSlash s <:+ s.rdropWhile (fun c => c == '/') := List.dropWhile_suffix _
  have hne2 : s.rdropWhile (fun c => c == '/') ≠ [] := by
    intro h0; rw [h0] at hsuf; exact hne (List.suffix_nil.mp hsuf)
  have hl := hsuf.getLast hne
  have hnot := List.rdropWhile_last_not (fun c => c == '/') s hne2
  rw [List.getLast?_eq_getLast _ hne] at hc
  have : (TrimSlash s).getLast hne = '/' := by simpa using hc
  rw [hl] at this
  simp [this] at hnot

/-- C4. For every root and every relative path: the root used is the trimmed
root `t` (the given root is `t` between two runs of slashes, and `t` neither
starts nor ends with a slash); `diskRoot` is `disk:/` when `t` is empty and
`disk:/t/` otherwise; the remote path of an object is `disk:/` followed by the
relative path when `t` is empty and `disk:/t` + one `/` + the relative path
otherwise; with the empty root `a/b/c.txt` resolves to `disk:/a/b/c.txt`. -/
theorem setRoot_remotePath_one_separator {W T : Type} (f : Fs W) (root : Str)
    (o : Object W T) :
    (∃ a b, root = List.replicate a '/' ++ TrimSlash root ++ List.replicate b '/') ∧
    (TrimSlash root).head? ≠ some '/' ∧
    (TrimSlash root).getLast? ≠ some '/' ∧
    (f.setRoot root).root = TrimSlash root ∧
    (f.setRoot root).diskRoot =
      (if TrimSlash root = [] then "disk:/".toList
       else "disk:/".toList ++ TrimSlash root ++ ['/']) ∧
    ({ o with fs := f.setRoot root } : Object W T).remotePath =
      (if TrimSlash root = [] then "disk:/".toList ++ o.remote
       else "disk:/".toList ++ TrimSlash root ++ ['/'] ++ o.remote) ∧
    (f.setRoot []).diskRoot = "disk:/".toList ∧
    ({ o with fs := f.setRoot [], remote := "a/b/c.txt".toList } : Object W T).remotePath
      = "disk:/a/b/c.txt".toList := by
  refine ⟨TrimSlash_decompose root, TrimSlash_head root, TrimSlash_getLast root, rfl, ?_, ?_,
    ?_, ?_⟩
  · simp only [Fs.setRoot]; rfl
  · simp only [Object.remotePath, Fs.setRoot]
    split <;> rfl
  · rfl
  · rfl

/-! ## Metadata resolution -/

/-- C2. When `rclone_modified` is present in the custom properties and is a
string that parses as the time `t`, the object's `modTime` after `setMetaData`
is `t`, whatever the native `Modified` field holds; size and hash are taken from
the info. -/
theorem setMetaData_override_wins {W T : Type} (parse : Str → Option T) (o : Object W T)
    (info : ResourceInfoResponse) (s : Str) (t : T)
    (hprop : info.CustomProperties.lookup "rclone_modified".toList = some (AnyValue.str s))
    (hparse : parse s = some t) :
    (o.setMetaData parse info).modTime = t ∧
    (o.setMetaData parse info).bytes = info.Size ∧
    (o.setMetaData parse info).md5sum = info.Md5 := by
  unfold Object.setMetaData mapIndex
  rw [hprop]
  simp [hparse]

/-- C2 at an entry whose override is 2016-01-01 and whose native time is
2017-06-30: the override is taken. -/
theorem setMetaData_override_wins_witness :
    (timedEntry "2017-06-30T12:00:00Z".toList
        [("rclone_modified".toList, AnyValue.str "2016-01-01T00:00:00Z".toList)]
      ).CustomProperties.lookup "rclone_modified".toList
      = some (AnyValue.str "2016-01-01T00:00:00Z".toList) ∧
    exampleParse "2016-01-01T00:00:00Z".toList = some 1451606400 ∧
    ((Object.mk (fsAt quietClient []) "a".toList [] 0 0 : Object Unit Nat).setMetaData
        exampleParse
        (timedEntry "2017-06-30T12:00:00Z".toList
          [("rclone_modified".toList, AnyValue.str "2016-01-01T00:00:00Z".toList)])
      ).modTime = 1451606400 :=
  ⟨by decide, by decide,
    (setMetaData_override_wins exampleParse _ _ "2016-01-01T00:00:00Z".toList 1451606400
      (by decide) (by decide)).1⟩

/-- C3, as the claim states it, fails: `rclone_modified` is the string
`yesterday`, which does not parse, the native `Modified` field parses as
1451606400, and `modTime` stays what it was (0) instead of becoming the native
time. -/
theorem setMetaData_malformed_no_fallback :
    (timedEntry "2016-01-01T00:00:00Z".toList
        [("rclone_modified".toList, AnyValue.str "yesterday".toList)]
      ).CustomProperties.lookup "rclone_modified".toList
      = some (AnyValue.str "yesterday".toList) ∧
    exampleParse "yesterday".toList = none ∧
    exampleParse (timedEntry "2016-01-01T00:00:00Z".toList
        [("rclone_modified".toList, AnyValue.str "yesterday".toList)]).Modified
      = some 1451606400 ∧
    ((Object.mk (fsAt quietClient []) "a".toList [] 0 0 : Object Unit Nat).setMetaData
        exampleParse
        (timedEntry "2016-01-01T00:00:00Z".toList
          [("rclone_modified".toList, AnyValue.str "yesterday".toList)])
      ).modTime = 0 := by
  refine ⟨by decide, by decide, by decide, by decide⟩

/-- C3, amended. When `rclone_modified` is present with value `v` and is
malformed (`v` is not a string, or a string that does not parse) and the native
`Modified` field parses as `t`: the native time is used only when `v` is nil
(JSON null); for every other malformed value `modTime` is left as it was. -/
theorem setMetaData_malformed_override {W T : Type} (parse : Str → Option T)
    (o : Object W T) (info : ResourceInfoResponse) (v : AnyValue) (t : T)
    (hprop : info.CustomProperties.lookup "rclone_modified".toList = some v)
    (hmal : ∀ s, v = AnyValue.str s → parse s = none)
    (hnative : parse info.Modified = some t) :
    (o.setMetaData parse info).modTime = (if v = AnyValue.nil then t else o.modTime) := by
  unfold Object.setMetaData mapIndex
  rw [hprop]
  cases v with
  | nil => simp [hnative]
  | str s => simp [hmal s rfl]
  | bool b => simp
  | num n => simp
  | composite => simp

/-- C3, amended, at an entry whose `rclone_modified` is the number 42: `modTime`
stays 7. -/
theorem setMetaData_malformed_override_witness :
    ((Object.mk (fsAt quietClient []) "a".toList [] 0 7 : Object Unit Nat).setMetaData
        exampleParse
        (timedEntry "2016-01-01T00:00:00Z".toList
          [("rclone_modified".toList, AnyValue.num 42)])
      ).modTime = 7 :=
  setMetaData_malformed_override exampleParse _
    (timedEntry "2016-01-01T00:00:00Z".toList [("rclone_modified".toList, AnyValue.num 42)])
    (AnyValue.num 42) 1451606400 (by decide) (by intro s h; cases h) (by decide)

/-! ## Directory creation: what is logged, what is returned -/

theorem mkDirExecute_world {W : Type} (client : Client W) (path : Str) (w : World W) :
    (mkDirExecute client path w).2 =
      ⟨(client.Mkdir path w.st).2, w.log ++ [Event.mkdir path]⟩ := by
  unfold mkDirExecute Client.callMkdir
  rcases h : client.Mkdir path w.st with ⟨⟨code, body, err⟩, s⟩
  dsimp only
  split_ifs
  · rfl
  · rfl
  · cases err <;> rfl

theorem mkDirExecute_err {W : Type} (client : Client W) (path : Str) (w : World W) :
    ((mkDirExecute client path w).1.2.2 = none ↔ (client.Mkdir path w.st).1.2.2 = none) ∧
    ((client.Mkdir path w.st).1.2.2 ≠ none →
      (mkDirExecute client path w).1.2.1 = (client.Mkdir path w.st).1.2.1) := by
  unfold mkDirExecute Client.callMkdir
  rcases h : client.Mkdir path w.st with ⟨⟨code, body, err⟩, s⟩
  dsimp only
  split_ifs
  · simp
  · simp
  · cases err <;> simp

theorem mkDirSegments_log {W : Type} (client : Client W) (segs : List Str) :
    ∀ (mkdirpath : Str) (w : World W),
      (mkDirSegments client segs mkdirpath w).log =
        w.log ++ (cumulativeFrom mkdirpath (segs.filter (fun seg => seg ≠ []))).map Event.mkdir := by
  induction segs with
  | nil => intro mkdirpath w; simp [mkDirSegments, cumulativeFrom]
  | cons seg segs ih =>
    intro mkdirpath w
    unfold mkDirSegments
    by_cases hseg : seg = []
    · simp [hseg, ih]
    · simp [hseg, ih, mkDirExecute_world, cumulativeFrom]

theorem cumulativeFrom_eq (segs : List Str) :
    ∀ mkdirpath : Str,
      cumulativeFrom mkdirpath segs =
        (List.range segs.length).map
          (fun i => mkdirpath ++ ((segs.take (i + 1)).map (fun seg => seg ++ "/".toList)).flatten) := by
  induction segs with
  | nil => intro mkdirpath; simp [cumulativeFrom]
  | cons seg segs ih =>
    intro mkdirpath
    simp only [cumulativeFrom, List.length_cons, List.range_succ_eq_map, List.map_cons,
      List.map_map, ih]
    simp [Function.comp_def]

theorem cumulativeFrom_slash (segs : List Str) :
    cumulativeFrom "/".toList segs = cumulativePrefixes segs :=
  cumulativeFrom_eq segs _

theorem mkDirFullPath_ret {W : Type} (client : Client W) (path : Str) (w : World W) :
    (mkDirFullPath client path w).1 = none := by
  unfold mkDirFullPath
  split
  · dsimp only
    split_ifs <;> rfl
  · rfl

theorem mkDirFullPath_log {W : Type} (client : Client W) (path : Str) (w : World W) :
    (mkDirFullPath client path w).2.log =
      w.log ++ Event.mkdir (dirString path) ::
        (if (client.Mkdir (dirString path) w.st).1.2.2 = none ∨
            client.ParseAPIError (client.Mkdir (dirString path) w.st).1.2.1 =
              "DiskPathPointsToExistentDirectoryError".toList
         then []
         else (cumulativePrefixes
            ((SplitSlash (dirString path)).filter (fun seg => seg ≠ []))).map Event.mkdir) := by
  have hw := mkDirExecute_world client (dirString path) w
  have he := mkDirExecute_err client (dirString path) w
  unfold mkDirFullPath
  split
  · rename_i code body e w1 heq
    rw [heq] at hw he
    dsimp only at hw he
    have hne : (client.Mkdir (dirString path) w.st).1.2.2 ≠ none := by
      intro hc; have := he.1.mpr hc; simp at this
    have hbody := he.2 hne
    subst hw
    dsimp only
    by_cases hc : client.ParseAPIError body = "DiskPathPointsToExistentDirectoryError".toList
    · rw [if_neg (not_not.mpr hc), if_pos (Or.inr (hbody ▸ hc))]
    · rw [if_pos hc, if_neg (by
        rintro (h | h)
        · exact hne h
        · exact hc (hbody ▸ h))]
      rw [mkDirSegments_log, cumulativeFrom_slash]
      simp
  · rename_i code body w1 heq
    rw [heq] at hw he
    dsimp only at hw he
    have h0 : (client.Mkdir (dirString path) w.st).1.2.2 = none := he.1.mp rfl
    subst hw
    simp [h0]

/-! ## The string functions on paths -/

theorem HasPrefix_append (p s : Str) : HasPrefix (p ++ s) p = true := by
  simp [HasPrefix]

theorem TrimPrefix_append (p s : Str) : TrimPrefix (p ++ s) p = s := by
  simp [TrimPrefix, HasPrefix]

theorem TrimSuffix_append (s p : Str) : TrimSuffix (s ++ p) p = s := by
  simp [TrimSuffix, HasSuffix]

theorem filepathBase_append (pre name : Str) (hname : name ≠ []) (hslash : '/' ∉ name)
    (hpre : pre = [] ∨ pre.getLast? = some '/') : filepathBase (pre ++ name) = name := by
  have hne : pre ++ name ≠ [] := by simp [hname]
  have hstrip : (pre ++ name).rdropWhile (fun c => c == '/') = pre ++ name := by
    rw [List.rdropWhile_eq_self_iff]
    intro hl
    rw [List.getLast_append_of_ne_nil hname]
    intro hc
    have hmem := List.getLast_mem hname
    have : name.getLast hname = '/' := by simpa using hc
    rw [this] at hmem
    exact hslash hmem
  have hall : ∀ a ∈ name.reverse, (a != '/') = true := by
    intro a ha
    have : a ∈ name := List.mem_reverse.mp ha
    simp only [bne_iff_ne, ne_eq]
    rintro rfl
    exact hslash this
  have hrest : pre.reverse.takeWhile (fun c => c != '/') = [] := by
    rcases hpre with rfl | hpre
    · rfl
    · have : pre.reverse.head? = some '/' := by simpa using hpre
      cases hrev : pre.reverse with
      | nil => rfl
      | cons x xs =>
        rw [hrev] at this
        have hx : x = '/' := by simpa using this
        simp [List.takeWhile, hx]
  have hlast : (pre ++ name).rtakeWhile (fun c => c != '/') = name := by
    unfold List.rtakeWhile
    rw [List.reverse_append, List.takeWhile_append_of_pos hall, hrest]
    simp
  unfold filepathBase
  rw [if_neg hne]
  dsimp only
  rw [hstrip, hlast, if_neg hname]

theorem dirString_of_parts (d name : Str) (hname : name ≠ []) (hslash : '/' ∉ name)
    (hd : d = [] ∨ d.getLast? = some '/') :
    dirString ("disk:/".toList ++ d ++ name) = d := by
  have hpre : "disk:/".toList ++ d = [] ∨ ("disk:/".toList ++ d).getLast? = some '/' := by
    right
    rcases hd with rfl | hd
    · rfl
    · rw [List.getLast?_append, hd]; rfl
  unfold dirString
  rw [filepathBase_append _ name hname hslash hpre, TrimSuffix_append, TrimPrefix_append]

theorem SplitSlash_ne_nil (s : Str) : SplitSlash s ≠ [] := by
  cases s with
  | nil => simp [SplitSlash]
  | cons c cs =>
    unfold SplitSlash
    split_ifs
    · simp
    · split <;> simp

theorem SplitSlash_intercalate (s : Str) : List.intercalate ['/'] (SplitSlash s) = s := by
  induction s with
  | nil => rfl
  | cons c cs ih =>
    unfold SplitSlash
    by_cases hc : c = '/'
    · subst hc
      have hne := SplitSlash_ne_nil cs
      cases hsp : SplitSlash cs with
      | nil => exact absurd hsp hne
      | cons piece pieces =>
        rw [hsp] at ih
        simp [List.intercalate, List.intersperse] at ih ⊢
        exact ih
    · have hne := SplitSlash_ne_nil cs
      cases hsp : SplitSlash cs with
      | nil => exact absurd hsp hne
      | cons piece pieces =>
        rw [hsp] at ih
        have : (c == '/') = false := by simpa using hc
        simp only [this]
        cases pieces with
        | nil =>
          simp [List.intercalate, List.intersperse] at ih ⊢
          exact ih
        | cons q qs =>
          simp [List.intercalate, List.intersperse] at ih ⊢
          exact ih

theorem SplitSlash_no_slash (s : Str) : ∀ seg ∈ SplitSlash s, '/' ∉ seg := by
  induction s with
  | nil => simp [SplitSlash]
  | cons c cs ih =>
    unfold SplitSlash
    by_cases hc : c = '/'
    · subst hc
      simpa using ih
    · have : (c == '/') = false := by simpa using hc
      simp only [this]
      cases hsp : SplitSlash cs with
      | nil => simp [Ne.symm hc]
      | cons piece pieces =>
        rw [hsp] at ih
        intro seg hseg
        simp only [Bool.false_eq_true, ↓reduceIte, List.mem_cons] at hseg
        rcases hseg with rfl | hseg
        · have := ih piece (by simp)
          simp [Ne.symm hc, this]
        · exact ih seg (by simp [hseg])

theorem TrimSuffix_filepathBase_trailing (p : Str) (hlast : p.getLast? = some '/')
    (hns : ∃ c ∈ p, c ≠ '/') : TrimSuffix p (filepathBase p) = p := by
  have hne : p ≠ [] := by rintro rfl; simp at hlast
  have hstrip : p.rdropWhile (fun c => c == '/') ≠ [] := by
    intro h0
    rw [List.rdropWhile_eq_nil_iff] at h0
    obtain ⟨c, hc, hcs⟩ := hns
    exact hcs (by simpa using h0 c hc)
  have hsl := List.rdropWhile_last_not (fun c => c == '/') p hstrip
  have htake : (p.rdropWhile (fun c => c == '/')).rtakeWhile (fun c => c != '/') ≠ [] := by
    intro h0
    rw [List.rtakeWhile_eq_nil_iff] at h0
    have := h0 hstrip
    simp only [bne_iff_ne, ne_eq, not_not] at this
    simp [this] at hsl
  have hbase : filepathBase p
      = (p.rdropWhile (fun c => c == '/')).rtakeWhile (fun c => c != '/') := by
    unfold filepathBase
    rw [if_neg hne]
    dsimp only
    rw [if_neg htake]
  have hmem : ∀ c ∈ filepathBase p, c ≠ '/' := by
    intro c hc
    rw [hbase] at hc
    have := List.mem_rtakeWhile_imp hc
    simpa using this
  unfold TrimSuffix
  rw [if_neg]
  intro hs
  unfold HasSuffix at hs
  have hsuf : filepathBase p <:+ p := List.isSuffixOf_iff_suffix.mp hs
  have hbne : filepathBase p ≠ [] := by rw [hbase]; exact htake
  have h1 := hsuf.getLast hbne
  have h2 : p.getLast hne = '/' := by
    rw [List.getLast?_eq_getLast _ hne] at hlast
    simpa using hlast
  have h3 := hmem _ (List.getLast_mem hbne)
  exact h3 (h1.trans h2)

/-- The `dirString` of a path `disk:/` + `d` + `name`, where `name` is the
part after the last slash (possibly empty), is `d`. -/
theorem dirString_of_segments (d name : Str) (hslash : '/' ∉ name)
    (hd : d = [] ∨ d.getLast? = some '/') :
    dirString ("disk:/".toList ++ d ++ name) = d := by
  by_cases hname : name = []
  · subst hname
    have hlast : ("disk:/".toList ++ d).getLast? = some '/' := by
      rcases hd with rfl | hd
      · rfl
      · rw [List.getLast?_append, hd]; rfl
    unfold dirString
    rw [List.append_nil, TrimSuffix_filepathBase_trailing _ hlast ⟨'d', by simp, by decide⟩,
      TrimPrefix_append]
  · exact dirString_of_parts d name hname hslash hd

/-! ## Reading the log: append -/

theorem handlerCalls_append (a b : List Event) :
    handlerCalls (a ++ b) = handlerCalls a ++ handlerCalls b := by
  induction a with
  | nil => rfl
  | cons ev a ih => cases ev <;> simp [handlerCalls, ih]

theorem pageRequests_append (a b : List Event) :
    pageRequests (a ++ b) = pageRequests a ++ pageRequests b := by
  induction a with
  | nil => rfl
  | cons ev a ih => cases ev <;> simp [pageRequests, ih]

theorem setPropCalls_append (a b : List Event) :
    setPropCalls (a ++ b) = setPropCalls a ++ setPropCalls b := by
  induction a with
  | nil => rfl
  | cons ev a ih => cases ev <;> simp [setPropCalls, ih]

theorem deleteCalls_append (a b : List Event) :
    deleteCalls (a ++ b) = deleteCalls a ++ deleteCalls b := by
  induction a with
  | nil => rfl
  | cons ev a ih => cases ev <;> simp [deleteCalls, ih]

theorem setPropCalls_mkdir (paths : List Str) : setPropCalls (paths.map Event.mkdir) = [] := by
  induction paths with
  | nil => rfl
  | cons p paths ih => simpa [setPropCalls] using ih

/-! ## The claims on directory creation, removal and upload -/

/-- C8. For every path, every behaviour of the client and every remote state,
`mkDirFullPath` returns no error, on a first call and on a second call made
right after it for the same path; so no "already exists" answer, at the
full-path attempt or at a per-segment attempt, ever surfaces as an error. -/
theorem mkDirFullPath_idempotent {W : Type} (client : Client W) (path : Str) (w : World W) :
    (mkDirFullPath client path w).1 = none ∧
    (mkDirFullPath client path (mkDirFullPath client path w).2).1 = none :=
  ⟨mkDirFullPath_ret client path w, mkDirFullPath_ret client path _⟩

/-- C10. The calls `mkDirFullPath` issues, for every path, client and remote
state: first one `Mkdir` on `dirString path`; nothing more when that call
returns no error or its error body parses to
`DiskPathPointsToExistentDirectoryError`; otherwise one `Mkdir` per non-empty
segment of `dirString path`, on the cumulative prefixes `/s1/`, `/s1/s2/`, ...
in this order, whatever these calls return. The segments are the pieces of
`dirString path` between slashes, and for a path `disk:/` + `d` + `name`, with
`name` the final segment (what follows the last slash), `dirString path` is
`d`. -/
theorem mkDirFullPath_call_sequence {W : Type} (client : Client W) (path : Str)
    (w : World W) :
    (mkDirFullPath client path w).2.log =
      w.log ++ Event.mkdir (dirString path) ::
        (if (client.Mkdir (dirString path) w.st).1.2.2 = none ∨
            client.ParseAPIError (client.Mkdir (dirString path) w.st).1.2.1 =
              "DiskPathPointsToExistentDirectoryError".toList
         then []
         else (cumulativePrefixes
            ((SplitSlash (dirString path)).filter (fun seg => seg ≠ []))).map Event.mkdir) ∧
    List.intercalate ['/'] (SplitSlash (dirString path)) = dirString path ∧
    (∀ seg ∈ SplitSlash (dirString path), '/' ∉ seg) ∧
    (∀ d name : Str, path = "disk:/".toList ++ d ++ name → '/' ∉ name →
      (d = [] ∨ d.getLast? = some '/') → dirString path = d) :=
  ⟨mkDirFullPath_log client path w, SplitSlash_intercalate _, SplitSlash_no_slash _,
    fun d name hp hslash hd => hp ▸ dirString_of_segments d name hslash hd⟩

/-- C5, as the claim states it, fails: the info request on the root returns a
directory without children and the delete call fails with an error; `Rmdir`
issues its one delete call and returns that error instead of succeeding. -/
theorem Rmdir_empty_delete_fails :
    ((fsAt (deleteFailsClient (GoError.ext 7)) []).yd.ResourceInfo
        "disk:/".toList ()).1 = Except.ok (dirEntry []) ∧
    (dirEntry []).Embedded = [] ∧
    ((fsAt (deleteFailsClient (GoError.ext 7)) []).Rmdir emptyWorld).1
      = some (GoError.ext 7) ∧
    deleteCalls ((fsAt (deleteFailsClient (GoError.ext 7)) []).Rmdir emptyWorld).2.log
      = [("disk:/".toList, true)] :=
  ⟨rfl, rfl, rfl, rfl⟩

/-- C5, amended. When the info request on `diskRoot` succeeds: if it returns
at least one immediate child, `Rmdir` fails with the error
`rmdir failed: directory not empty` and issues no delete call; if it returns no
child, `Rmdir` issues exactly one delete call, on `diskRoot`, and returns what
that call returns (so it succeeds exactly when the delete call does). -/
theorem Rmdir_check_then_delete {W : Type} (f : Fs W) (w : World W)
    (resp : ResourceInfoResponse)
    (hinfo : (f.yd.ResourceInfo f.diskRoot w.st).1 = Except.ok resp) :
    (resp.Embedded ≠ [] →
      (f.Rmdir w).1 = some (GoError.new "rmdir failed: directory not empty".toList) ∧
      (f.Rmdir w).2.log = w.log ++ [Event.info f.diskRoot] ∧
      deleteCalls (f.Rmdir w).2.log = deleteCalls w.log) ∧
    (resp.Embedded = [] →
      (f.Rmdir w).1
        = (f.yd.Delete f.diskRoot true (f.yd.ResourceInfo f.diskRoot w.st).2).1 ∧
      (f.Rmdir w).2.log = w.log ++ [Event.info f.diskRoot, Event.delete f.diskRoot true] ∧
      deleteCalls (f.Rmdir w).2.log = deleteCalls w.log ++ [(f.diskRoot, true)]) := by
  unfold Fs.Rmdir Fs.purgeCheck Client.callResourceInfo Client.callDelete
  rcases h : f.yd.ResourceInfo f.diskRoot w.st with ⟨r, s⟩
  rw [h] at hinfo
  dsimp only at hinfo
  subst hinfo
  constructor
  · intro hne
    have hlen : resp.Embedded.length ≠ 0 := by
      intro h0; exact hne (List.length_eq_zero.mp h0)
    simp [hlen, deleteCalls_append, deleteCalls]
  · intro he
    simp [he, deleteCalls_append, deleteCalls]

/-- C5, amended, on an empty root whose delete call succeeds. -/
theorem Rmdir_check_then_delete_witness :
    ((fsAt quietClient []).Rmdir emptyWorld).1 = none ∧
    ((fsAt quietClient []).Rmdir emptyWorld).2.log
      = [Event.info "disk:/".toList, Event.delete "disk:/".toList true] :=
  ⟨((Rmdir_check_then_delete (fsAt quietClient []) emptyWorld (dirEntry []) rfl).2 rfl).1,
   ((Rmdir_check_then_delete (fsAt quietClient []) emptyWorld (dirEntry []) rfl).2 rfl).2.1⟩

/-- C10 at `disk:/a/b/c.txt` with a client whose `Mkdir` always fails: the calls
are on `a/b/`, `/a/` and `/a/b/`. -/
theorem mkDirFullPath_call_sequence_witness :
    (mkDirFullPath mkdirFailsClient "disk:/a/b/c.txt".toList emptyWorld).2.log
      = [Event.mkdir "a/b/".toList, Event.mkdir "/a/".toList, Event.mkdir "/a/b/".toList] ∧
    dirString "disk:/a/b/c.txt".toList = "a/b/".toList :=
  ⟨(mkDirFullPath_call_sequence mkdirFailsClient "disk:/a/b/c.txt".toList emptyWorld).1.trans rfl,
   (mkDirFullPath_call_sequence quietClient "disk:/a/b/c.txt".toList emptyWorld).2.2.2
      "a/b/".toList "c.txt".toList rfl (by decide) (by decide)⟩

theorem mkDirFullPath_only_mkdir {W : Type} (client : Client W) (path : Str) (w : World W) :
    ∃ paths : List Str, (mkDirFullPath client path w).2.log = w.log ++ paths.map Event.mkdir := by
  rw [mkDirFullPath_log]
  split_ifs
  · exact ⟨[dirString path], rfl⟩
  · exact ⟨dirString path :: _, rfl⟩

/-- C7. `Update` first runs `mkDirFullPath` on the remote path (only `Mkdir`
calls, no error), then uploads. If the upload call fails with `e`, `Update`
returns `e`, issues no `SetCustomProperty` call and leaves the object as it
was (bytes, md5sum, modTime). If the upload call succeeds, `Update` issues
exactly one `SetCustomProperty` call, for the remote path, with key
`rclone_modified` and the source's modification time formatted, returns what
that call returns, and the object holds the source's size and time and an
empty md5sum. -/
theorem Update_sets_modtime_on_upload_success_only {W T : Type} (format : T → Str)
    (o : Object W T) (input : List Nat) (src : ObjectInfo T) (w : World W) :
    ∃ (paths : List Str) (w1 : World W),
      mkDirFullPath o.fs.yd o.remotePath w = (none, w1) ∧
      w1.log = w.log ++ paths.map Event.mkdir ∧
      (∀ e, (o.fs.yd.Upload input o.remotePath true w1.st).1 = some e →
        (o.Update format input src w).1 = (some e, o) ∧
        (o.Update format input src w).2.log = w1.log ++ [Event.upload o.remotePath true] ∧
        setPropCalls (o.Update format input src w).2.log = setPropCalls w.log) ∧
      ((o.fs.yd.Upload input o.remotePath true w1.st).1 = none →
        (o.Update format input src w).1.1 =
          (o.fs.yd.SetCustomProperty o.remotePath "rclone_modified".toList
            (format src.ModTime) (o.fs.yd.Upload input o.remotePath true w1.st).2).1 ∧
        (o.Update format input src w).1.2 =
          { o with bytes := (src.Size % 2 ^ 64).toNat, modTime := src.ModTime, md5sum := [] } ∧
        (o.Update format input src w).2.log =
          w1.log ++ [Event.upload o.remotePath true,
            Event.setProp o.remotePath "rclone_modified".toList (format src.ModTime)] ∧
        setPropCalls (o.Update format input src w).2.log =
          setPropCalls w.log ++
            [(o.remotePath, "rclone_modified".toList, format src.ModTime)]) := by
  have hret := mkDirFullPath_ret o.fs.yd o.remotePath w
  obtain ⟨paths, hlog⟩ := mkDirFullPath_only_mkdir o.fs.yd o.remotePath w
  rcases hmk : mkDirFullPath o.fs.yd o.remotePath w with ⟨r, w1⟩
  rw [hmk] at hret hlog
  dsimp only at hret hlog
  subst hret
  refine ⟨paths, w1, rfl, hlog, ?_, ?_⟩
  · intro e he
    simp only [Object.Update, Client.callUpload]
    rw [hmk]
    dsimp only
    rcases hup : o.fs.yd.Upload input o.remotePath true w1.st with ⟨u, s⟩
    rw [hup] at he
    dsimp only at he
    subst he
    refine ⟨rfl, rfl, ?_⟩
    dsimp only
    rw [hlog, List.append_assoc, setPropCalls_append, setPropCalls_append,
      setPropCalls_mkdir]
    simp [setPropCalls]
  · intro he
    simp only [Object.Update, Client.callUpload]
    rw [hmk]
    dsimp only
    rcases hup : o.fs.yd.Upload input o.remotePath true w1.st with ⟨u, s⟩
    rw [hup] at he
    dsimp only at he
    subst he
    dsimp only [Object.SetModTime, Client.callSetCustomProperty, Object.remotePath]
    refine ⟨rfl, rfl, by simp, ?_⟩
    rw [hlog, List.append_assoc, setPropCalls_append,
      setPropCalls_append, setPropCalls_mkdir]
    simp [setPropCalls]

/-- C7 on a client whose calls all succeed: uploading `a/b.txt` with source time
1451606400 issues the one `SetCustomProperty` call, with the formatted time. -/
theorem Update_sets_modtime_on_upload_success_only_witness :
    setPropCalls ((Object.mk (fsAt quietClient []) "a/b.txt".toList [] 0 0 :
        Object Unit Nat).Update exampleFormat [1, 2, 3]
        ⟨"a/b.txt".toList, 3, 1451606400⟩ emptyWorld).2.log
      = [("disk:/a/b.txt".toList, "rclone_modified".toList, "2016-01-01T00:00:00Z".toList)] ∧
    ((Object.mk (fsAt quietClient []) "a/b.txt".toList [] 0 0 :
        Object Unit Nat).Update exampleFormat [1, 2, 3]
        ⟨"a/b.txt".toList, 3, 1451606400⟩ emptyWorld).1.1 = none := by
  obtain ⟨paths, w1, _, _, _, hok⟩ :=
    Update_sets_modtime_on_upload_success_only exampleFormat
      (Object.mk (fsAt quietClient []) "a/b.txt".toList [] 0 0 : Object Unit Nat) [1, 2, 3]
      ⟨"a/b.txt".toList, 3, 1451606400⟩ emptyWorld
  exact ⟨(hok rfl).2.2.2, (hok rfl).1⟩

/-! ## Flat listing: one page -/

theorem handlerErrors_append (a b : List Event) :
    handlerErrors (a ++ b) = handlerErrors a ++ handlerErrors b := by
  induction a with
  | nil => rfl
  | cons ev a ih =>
    cases ev with
    | handler name item d ret => cases ret <;> simp [handlerErrors, ih]
    | _ => simp [handlerErrors, ih]

/-- The log of one page: the handler is invoked on the entries that carry the
prefix, in order, up to and including the first one it rejects. -/
theorem listItems_log {W : Type} (f : Fs W) (pfx : Str) (fn : listFn W)
    (items : List ResourceInfoResponse) :
    ∀ w : World W, ∃ rets : List (Option GoError),
      rets.length ≤ (items.filter (fun it => HasPrefix it.Path pfx)).length ∧
      (f.listItems pfx fn items w).2.log =
        w.log ++ List.zipWith
          (fun it ret => Event.handler (TrimPrefix it.Path f.diskRoot) it false ret)
          (items.filter (fun it => HasPrefix it.Path pfx)) rets ∧
      ((f.listItems pfx fn items w).1 = none →
        rets = List.replicate (items.filter (fun it => HasPrefix it.Path pfx)).length none) ∧
      (∀ e, (f.listItems pfx fn items w).1 = some e →
        ∃ rets0, rets = List.replicate rets0 none ++ [some e]) := by
  induction items with
  | nil =>
    intro w
    exact ⟨[], by simp, by simp [Fs.listItems], by simp, by simp [Fs.listItems]⟩
  | cons item rest ih =>
    intro w
    unfold Fs.listItems
    by_cases hp : HasPrefix item.Path pfx = true
    · simp only [hp, if_true, List.filter_cons_of_pos]
      rcases hfn : fn (TrimPrefix item.Path f.diskRoot) item false w.st with ⟨ret, s⟩
      cases ret with
      | some err =>
        refine ⟨[some err], by simp, ?_, ?_, ?_⟩
        · simp [callHandler, hfn]
        · simp [callHandler, hfn]
        · intro e he
          refine ⟨0, ?_⟩
          simp [callHandler, hfn] at he
          simp [he]
      | none =>
        obtain ⟨rets, hlen, hlog, hnone, hsome⟩ :=
          ih ⟨s, w.log ++ [Event.handler (TrimPrefix item.Path f.diskRoot) item false none]⟩
        refine ⟨none :: rets, by simpa using hlen, ?_, ?_, ?_⟩
        · simp only [callHandler, hfn]
          rw [hlog]
          simp
        · intro h
          simp only [callHandler, hfn] at h
          rw [hnone h]
          simp [List.replicate_succ]
        · intro e he
          simp only [callHandler, hfn] at he
          obtain ⟨n, hn⟩ := hsome e he
          exact ⟨n + 1, by rw [hn]; simp [List.replicate_succ]⟩
    · simp only [hp, Bool.false_eq_true, if_false]
      have hf : List.filter (fun it => HasPrefix it.Path pfx) (item :: rest)
          = List.filter (fun it => HasPrefix it.Path pfx) rest := by
        simp [List.filter, hp]
      rw [hf]
      exact ih w

theorem listItems_ok_log {W : Type} (f : Fs W) (pfx : Str) (fn : listFn W)
    (items : List ResourceInfoResponse) (w : World W)
    (hok : (f.listItems pfx fn items w).1 = none) :
    (f.listItems pfx fn items w).2.log =
      w.log ++ (items.filter (fun it => HasPrefix it.Path pfx)).map
        (fun it => Event.handler (TrimPrefix it.Path f.diskRoot) it false none) := by
  obtain ⟨rets, _, hlog, hnone, _⟩ := listItems_log f pfx fn items w
  rw [hlog, hnone hok]
  congr 1
  generalize items.filter (fun it => HasPrefix it.Path pfx) = l
  induction l with
  | nil => rfl
  | cons a l ih => simp [List.replicate_succ, ih]

/-! ## Flat listing: a handler error ends everything -/

theorem listItems_errors {W : Type} (f : Fs W) (pfx : Str) (fn : listFn W)
    (items : List ResourceInfoResponse) :
    ∀ w : World W, ∃ evs : List Event,
      (f.listItems pfx fn items w).2.log = w.log ++ evs ∧
      (((f.listItems pfx fn items w).1 = none ∧ handlerErrors evs = []) ∨
        ∃ evs0 name item d e, evs = evs0 ++ [Event.handler name item d (some e)] ∧
          handlerErrors evs0 = [] ∧ (f.listItems pfx fn items w).1 = some e) := by
  induction items with
  | nil => intro w; exact ⟨[], by simp [Fs.listItems], Or.inl ⟨rfl, rfl⟩⟩
  | cons item rest ih =>
    intro w
    unfold Fs.listItems
    by_cases hp : HasPrefix item.Path pfx = true
    · simp only [hp, if_true]
      rcases hfn : fn (TrimPrefix item.Path f.diskRoot) item false w.st with ⟨ret, s⟩
      cases ret with
      | some err =>
        refine ⟨[Event.handler (TrimPrefix item.Path f.diskRoot) item false (some err)], ?_,
          Or.inr ⟨[], _, _, _, err, rfl, rfl, ?_⟩⟩
        · simp [callHandler, hfn]
        · simp [callHandler, hfn]
      | none =>
        obtain ⟨evs, hlog, hcase⟩ :=
          ih ⟨s, w.log ++ [Event.handler (TrimPrefix item.Path f.diskRoot) item false none]⟩
        refine ⟨Event.handler (TrimPrefix item.Path f.diskRoot) item false none :: evs, ?_, ?_⟩
        · simp only [callHandler, hfn]
          rw [hlog]
          simp
        · simp only [callHandler, hfn]
          rcases hcase with ⟨h1, h2⟩ | ⟨evs0, name, it, d, e, h1, h2, h3⟩
          · exact Or.inl ⟨h1, by simpa [handlerErrors] using h2⟩
          · exact Or.inr ⟨_ :: evs0, name, it, d, e, by rw [h1]; rfl,
              by simpa [handlerErrors] using h2, h3⟩
    · simp only [hp, Bool.false_eq_true, if_false]
      exact ih w

theorem listPages_errors {W : Type} (f : Fs W) (limit : Nat) (pfx : Str) (fn : listFn W)
    (fuel : Nat) :
    ∀ (offset : Nat) (w : World W), ∃ evs : List Event,
      (f.listPages limit pfx fn fuel offset w).2.log = w.log ++ evs ∧
      (handlerErrors evs = [] ∨
        ∃ evs0 name item d e, evs = evs0 ++ [Event.handler name item d (some e)] ∧
          handlerErrors evs0 = [] ∧
          (f.listPages limit pfx fn fuel offset w).1 = some (some e)) := by
  induction fuel with
  | zero => intro offset w; exact ⟨[], by simp [Fs.listPages], Or.inl rfl⟩
  | succ fuel ih =>
    intro offset w
    unfold Fs.listPages Client.callFlatFileList
    rcases hreq : f.yd.FlatFileList offset limit w.st with ⟨resp, s⟩
    cases resp with
    | error err => exact ⟨[Event.flatList offset limit], rfl, Or.inl rfl⟩
    | ok items =>
      dsimp only
      obtain ⟨evsI, hlogI, hcaseI⟩ :=
        listItems_errors f pfx fn items ⟨s, w.log ++ [Event.flatList offset limit]⟩
      rcases hit : f.listItems pfx fn items ⟨s, w.log ++ [Event.flatList offset limit]⟩
        with ⟨ret, w2⟩
      rw [hit] at hlogI hcaseI
      dsimp only at hlogI hcaseI
      cases ret with
      | some err =>
        dsimp only
        refine ⟨Event.flatList offset limit :: evsI, by rw [hlogI]; simp, ?_⟩
        rcases hcaseI with ⟨h1, _⟩ | ⟨evs0, name, it, d, e, h1, h2, h3⟩
        · cases h1
        · cases h3
          exact Or.inr ⟨_ :: evs0, name, it, d, err, by rw [h1]; rfl,
            by simpa [handlerErrors] using h2, rfl⟩
      | none =>
        dsimp only
        have hclean : handlerErrors evsI = [] := by
          rcases hcaseI with ⟨_, h2⟩ | ⟨evs0, name, it, d, e, _, _, h3⟩
          · exact h2
          · cases h3
        split_ifs with hlt
        · exact ⟨Event.flatList offset limit :: evsI, by rw [hlogI]; simp,
            Or.inl (by simpa [handlerErrors] using hclean)⟩
        · obtain ⟨evs2, hlog2, hcase2⟩ := ih ((offset + items.length % 2 ^ 32) % 2 ^ 32) w2
          refine ⟨Event.flatList offset limit :: (evsI ++ evs2), by rw [hlog2, hlogI]; simp, ?_⟩
          rcases hcase2 with h | ⟨evs0, name, it, d, e, h1, h2, h3⟩
          · exact Or.inl (by simp [handlerErrors, handlerErrors_append, hclean, h])
          · refine Or.inr ⟨Event.flatList offset limit :: (evsI ++ evs0), name, it, d, e, ?_,
              ?_, h3⟩
            · rw [h1]; simp
            · simp [handlerErrors, handlerErrors_append, hclean, h2]

/-- C6. In a run of `Fs.list` (any page size, any fuel, any client and any
handler): if the handler is invoked and returns the error `e`, then that
invocation is the last action of the run, so the handler is invoked on no later
entry and no page request follows, and `list` has returned, with `e`. -/
theorem list_stops_at_handler_error {W : Type} (f : Fs W) (limit : Nat) (dir : Str)
    (fn : listFn W) (fuel : Nat) (w : World W) (pre post : List Event) (name : Str)
    (item : ResourceInfoResponse) (d : Bool) (e : GoError)
    (hlog : (f.listWith limit dir fn fuel w).2.log =
      w.log ++ pre ++ Event.handler name item d (some e) :: post) :
    post = [] ∧ (f.listWith limit dir fn fuel w).1 = some (some e) := by
  unfold Fs.listWith at hlog ⊢
  obtain ⟨evs, hevs, hcase⟩ := listPages_errors f limit (f.listPrefix dir) fn fuel 0 w
  rw [hevs, List.append_assoc] at hlog
  have heq := List.append_cancel_left hlog
  rcases hcase with h | ⟨evs0, name0, it0, d0, e0, h1, h2, h3⟩
  · rw [heq] at h
    simp [handlerErrors_append, handlerErrors] at h
  · rw [h1] at heq
    rcases List.eq_nil_or_concat post with hp | ⟨post0, x, hp⟩
    · subst hp
      have h4 : evs0 ++ [Event.handler name0 it0 d0 (some e0)]
          = pre ++ [Event.handler name item d (some e)] := heq
      have h5 := List.append_inj_right' h4 rfl
      simp only [List.cons.injEq, Event.handler.injEq, Option.some.injEq, and_true] at h5
      rw [h3, h5.2.2.2]
      exact ⟨rfl, rfl⟩
    · subst hp
      have h4 : evs0 ++ [Event.handler name0 it0 d0 (some e0)]
          = (pre ++ Event.handler name item d (some e) :: post0) ++ [x] := by
        rw [heq]; simp
      have h5 := List.append_inj_left' h4 rfl
      rw [h5] at h2
      simp [handlerErrors_append, handlerErrors] at h2

/-- C6 on a page `x`, `y`, `z` with a handler that rejects `y`: the run ends
with the invocation on `y`. -/
theorem list_stops_at_handler_error_witness :
    ((fsAt (pagedClient (fun _ _ => [fileEntry "disk:/x".toList,
        fileEntry "disk:/y".toList, fileEntry "disk:/z".toList])) []).listWith 1000 []
        (rejectAt "y".toList (GoError.ext 9)) 5 emptyWorld).2.log
      = [Event.flatList 0 1000,
          Event.handler "x".toList (fileEntry "disk:/x".toList) false none,
          Event.handler "y".toList (fileEntry "disk:/y".toList) false (some (GoError.ext 9))] ∧
    ((fsAt (pagedClient (fun _ _ => [fileEntry "disk:/x".toList,
        fileEntry "disk:/y".toList, fileEntry "disk:/z".toList])) []).listWith 1000 []
        (rejectAt "y".toList (GoError.ext 9)) 5 emptyWorld).1 = some (some (GoError.ext 9)) :=
  ⟨rfl,
   (list_stops_at_handler_error
      (fsAt (pagedClient (fun _ _ => [fileEntry "disk:/x".toList,
        fileEntry "disk:/y".toList, fileEntry "disk:/z".toList])) []) 1000 [] (rejectAt "y".toList (GoError.ext 9)) 5 emptyWorld
      [Event.flatList 0 1000, Event.handler "x".toList (fileEntry "disk:/x".toList) false none]
      [] "y".toList (fileEntry "disk:/y".toList) false (GoError.ext 9) rfl).2⟩

/-! ## Flat listing: which entries reach the handler, under which name -/

theorem TrimPrefix_listPrefix (diskRoot dir path : Str)
    (h : HasPrefix path (diskRoot ++ (dir ++ "/".toList)) = true) :
    TrimPrefix path diskRoot =
      (dir ++ "/".toList) ++ TrimPrefix path (diskRoot ++ (dir ++ "/".toList)) := by
  unfold HasPrefix at h
  obtain ⟨rest, hrest⟩ := List.isPrefixOf_iff_prefix.mp h
  rw [← hrest, TrimPrefix_append, List.append_assoc, TrimPrefix_append]

/-- C9, as the claim states it, fails: with `diskRoot = disk:/` and the
listing directory `a`, the entry `disk:/a/b` has the prefix `disk:/a/`; the
handler is invoked with the name `a/b`, while the path with the prefix stripped
is `b`. -/
theorem list_name_keeps_dir :
    handlerCalls ((fsAt (pagedClient (fun _ _ => [fileEntry "disk:/a/b".toList])) []).list "a".toList acceptAll 1
        emptyWorld).2.log
      = [("a/b".toList, fileEntry "disk:/a/b".toList)] ∧
    (fsAt (pagedClient (fun _ _ => [fileEntry "disk:/a/b".toList])) []).listPrefix "a".toList
      = "disk:/a/".toList ∧
    TrimPrefix "disk:/a/b".toList "disk:/a/".toList = "b".toList ∧
    "a/b".toList ≠ "b".toList :=
  ⟨rfl, rfl, rfl, by decide⟩

/-! ## Flat listing over the synthetic store -/

theorem listItems_accept {W : Type} (f : Fs W) (pfx : Str) (fn : listFn W)
    (hfn : ∀ name item d s, (fn name item d s).1 = none)
    (items : List ResourceInfoResponse) :
    ∀ w : World W, (f.listItems pfx fn items w).1 = none := by
  induction items with
  | nil => intro w; rfl
  | cons item rest ih =>
    intro w
    unfold Fs.listItems
    split_ifs
    · have h := hfn (TrimPrefix item.Path f.diskRoot) item false w.st
      simp only [callHandler]
      rcases hr : fn (TrimPrefix item.Path f.diskRoot) item false w.st with ⟨ret, s⟩
      rw [hr] at h
      dsimp only at h
      subst h
      exact ih _
    · exact ih w

theorem listItems_store_page {W : Type} (f : Fs W) (pfx : Str) (fn : listFn W)
    (N limit : Nat) (entry : Nat → ResourceInfoResponse)
    (hfn : ∀ name item d s, (fn name item d s).1 = none)
    (hpfx : ∀ i, i < N → HasPrefix (entry i).Path pfx = true)
    (offset : Nat) (w : World W) :
    (f.listItems pfx fn
        ((List.range' offset (min (offset + limit) N - offset)).map entry) w).2.log =
      w.log ++ (List.range' offset (min (offset + limit) N - offset)).map
        (fun i => Event.handler (TrimPrefix (entry i).Path f.diskRoot) (entry i) false none) := by
  rw [listItems_ok_log f pfx fn _ w (listItems_accept f pfx fn hfn _ w)]
  congr 1
  have hall : List.filter (fun it => HasPrefix it.Path pfx)
      ((List.range' offset (min (offset + limit) N - offset)).map entry)
      = (List.range' offset (min (offset + limit) N - offset)).map entry := by
    rw [List.filter_eq_self]
    intro it hit
    obtain ⟨i, hi, rfl⟩ := List.mem_map.mp hit
    have := List.mem_range'_1.mp hi
    exact hpfx i (by omega)
  rw [hall, List.map_map]
  rfl

theorem listPages_succ {W : Type} (f : Fs W) (limit : Nat) (pfx : Str) (fn : listFn W)
    (fuel offset : Nat) (w : World W) :
    f.listPages limit pfx fn (fuel + 1) offset w =
      match f.yd.callFlatFileList offset limit w with
      | (Except.error err, w1) => (some (some err), w1)
      | (Except.ok items, w1) =>
        match Fs.listItems f pfx fn items w1 with
        | (some err, w2) => (some (some err), w2)
        | (none, w2) =>
          if items.length % 2 ^ 32 < limit then (some none, w2)
          else f.listPages limit pfx fn fuel ((offset + items.length % 2 ^ 32) % 2 ^ 32) w2 := by
  rw [Fs.listPages]

/-- One page request on the synthetic store: what is logged, and whether the
loop goes on (full page) or `list` returns (short page). -/
theorem listPages_store_step {W : Type} (f : Fs W) (limit : Nat) (pfx : Str) (fn : listFn W)
    (N : Nat) (entry : Nat → ResourceInfoResponse)
    (hstore : f.yd.FlatFileList = syntheticStore N entry)
    (hfn : ∀ name item d s, (fn name item d s).1 = none)
    (hpfx : ∀ i, i < N → HasPrefix (entry i).Path pfx = true)
    (hL : 0 < limit) (hL32 : limit < 2 ^ 32)
    (offset : Nat) (w : World W) :
    ∃ w1 : World W, w1.log = w.log ++ pageEvents f.diskRoot N limit entry offset ∧
      (offset + limit ≤ N → ∀ fuel, f.listPages limit pfx fn (fuel + 1) offset w =
        f.listPages limit pfx fn fuel ((offset + limit) % 2 ^ 32) w1) ∧
      (N < offset + limit → ∀ fuel, f.listPages limit pfx fn (fuel + 1) offset w =
        (some none, w1)) := by
  have hlog := listItems_store_page f pfx fn N limit entry hfn hpfx offset
    ⟨w.st, w.log ++ [Event.flatList offset limit]⟩
  have hacc := listItems_accept f pfx fn hfn
    ((List.range' offset (min (offset + limit) N - offset)).map entry)
    ⟨w.st, w.log ++ [Event.flatList offset limit]⟩
  rcases hit : f.listItems pfx fn
      ((List.range' offset (min (offset + limit) N - offset)).map entry)
      ⟨w.st, w.log ++ [Event.flatList offset limit]⟩ with ⟨ret, w1⟩
  rw [hit] at hlog hacc
  dsimp only at hlog hacc
  subst hacc
  refine ⟨w1, ?_, ?_, ?_⟩
  · rw [hlog]
    simp [pageEvents]
  · intro hfull fuel
    have hcnt : min (offset + limit) N - offset = limit := by omega
    have hmod : limit % 2 ^ 32 = limit := Nat.mod_eq_of_lt hL32
    rw [hcnt] at hit
    rw [listPages_succ]
    simp only [Client.callFlatFileList, hstore, syntheticStore, hcnt, hit, List.length_map,
      List.length_range', hmod, lt_irrefl, if_false]
  · intro hshort fuel
    have hcnt : min (offset + limit) N - offset < limit := by omega
    have hmod : (min (offset + limit) N - offset) % 2 ^ 32 = min (offset + limit) N - offset :=
      Nat.mod_eq_of_lt (by omega)
    rw [listPages_succ]
    simp only [Client.callFlatFileList, hstore, syntheticStore, hit, List.length_map,
      List.length_range', hmod, hcnt, if_true]

/-- The loop over `k` full pages of the synthetic store. -/
theorem listPages_store_full {W : Type} (f : Fs W) (limit : Nat) (pfx : Str) (fn : listFn W)
    (N : Nat) (entry : Nat → ResourceInfoResponse)
    (hstore : f.yd.FlatFileList = syntheticStore N entry)
    (hfn : ∀ name item d s, (fn name item d s).1 = none)
    (hpfx : ∀ i, i < N → HasPrefix (entry i).Path pfx = true)
    (hL : 0 < limit) (hL32 : limit < 2 ^ 32) (k : Nat) :
    ∀ (offset : Nat) (w : World W), offset < 2 ^ 32 → offset + k * limit ≤ N →
      offset + k * limit < 2 ^ 32 + limit →
      ∃ w1 : World W, w1.log = w.log ++ storeEvents f.diskRoot N limit entry k offset ∧
        ∀ fuel, f.listPages limit pfx fn (fuel + k) offset w =
          f.listPages limit pfx fn fuel ((offset + k * limit) % 2 ^ 32) w1 := by
  induction k with
  | zero =>
    intro offset w ho _ _
    refine ⟨w, by simp [storeEvents], fun fuel => ?_⟩
    rw [Nat.zero_mul, Nat.add_zero, Nat.add_zero, Nat.mod_eq_of_lt ho]
  | succ k ih =>
    intro offset w ho hN h32
    rw [Nat.succ_mul] at hN h32
    obtain ⟨w1, hlog1, hfull, _⟩ :=
      listPages_store_step f limit pfx fn N entry hstore hfn hpfx hL hL32 offset w
    have hstep := hfull (by omega)
    rcases Nat.eq_zero_or_pos k with hk | hk
    · subst hk
      refine ⟨w1, by simp [storeEvents, hlog1], fun fuel => ?_⟩
      rw [hstep fuel]
      simp
    · have hkl : limit ≤ k * limit := Nat.le_mul_of_pos_left limit hk
      have hnowrap : (offset + limit) % 2 ^ 32 = offset + limit :=
        Nat.mod_eq_of_lt (by omega)
      obtain ⟨w2, hlog2, hrest⟩ := ih (offset + limit) w1 (by omega) (by omega) (by omega)
      refine ⟨w2, by rw [hlog2, hlog1]; simp [storeEvents], fun fuel => ?_⟩
      have := hstep (fuel + k)
      rw [hnowrap] at this
      rw [show fuel + (k + 1) = fuel + k + 1 from rfl, this, hrest fuel]
      congr 2
      rw [Nat.succ_mul]
      omega

theorem handlerCalls_map_handler {α : Type} (g : α → Str) (h : α → ResourceInfoResponse)
    (d : Bool) (r : Option GoError) (l : List α) :
    handlerCalls (l.map (fun i => Event.handler (g i) (h i) d r)) =
      l.map (fun i => (g i, h i)) := by
  induction l with
  | nil => rfl
  | cons a l ih => simp [handlerCalls, ih]

theorem pageRequests_map_handler {α : Type} (g : α → Str) (h : α → ResourceInfoResponse)
    (d : Bool) (r : Option GoError) (l : List α) :
    pageRequests (l.map (fun i => Event.handler (g i) (h i) d r)) = [] := by
  induction l with
  | nil => rfl
  | cons a l ih => simp [pageRequests, ih]

theorem handlerCalls_pageEvents (diskRoot : Str) (N limit : Nat)
    (entry : Nat → ResourceInfoResponse) (offset : Nat) :
    handlerCalls (pageEvents diskRoot N limit entry offset) =
      (List.range' offset (min (offset + limit) N - offset)).map
        (fun i => (TrimPrefix (entry i).Path diskRoot, entry i)) := by
  unfold pageEvents
  rw [← handlerCalls_map_handler _ _ false none]
  rfl

theorem pageRequests_pageEvents (diskRoot : Str) (N limit : Nat)
    (entry : Nat → ResourceInfoResponse) (offset : Nat) :
    pageRequests (pageEvents diskRoot N limit entry offset) = [(offset, limit)] := by
  unfold pageEvents
  simp [pageRequests, pageRequests_map_handler]

theorem handlerCalls_storeEvents (diskRoot : Str) (N limit : Nat)
    (entry : Nat → ResourceInfoResponse) (k : Nat) :
    ∀ offset, offset + k * limit ≤ N →
      handlerCalls (storeEvents diskRoot N limit entry k offset) =
        (List.range' offset (k * limit)).map
          (fun i => (TrimPrefix (entry i).Path diskRoot, entry i)) := by
  induction k with
  | zero => intro offset _; simp [storeEvents, handlerCalls]
  | succ k ih =>
    intro offset h
    rw [Nat.succ_mul] at h
    have hcnt : min (offset + limit) N - offset = limit := by omega
    rw [storeEvents, handlerCalls_append, handlerCalls_pageEvents, hcnt,
      ih (offset + limit) (by omega), ← List.map_append, List.range'_append_1, Nat.succ_mul]

theorem pageRequests_storeEvents (diskRoot : Str) (N limit : Nat)
    (entry : Nat → ResourceInfoResponse) (k : Nat) :
    ∀ offset, pageRequests (storeEvents diskRoot N limit entry k offset) =
      (List.range k).map (fun i => (offset + i * limit, limit)) := by
  induction k with
  | zero => intro offset; simp [storeEvents, pageRequests]
  | succ k ih =>
    intro offset
    rw [storeEvents, pageRequests_append, pageRequests_pageEvents, ih, List.range_succ_eq_map]
    simp only [List.map_cons, List.map_map, Nat.zero_mul, Nat.add_zero, List.singleton_append,
      List.cons.injEq, true_and]
    apply List.map_congr_left
    intro i _
    simp only [Function.comp, Nat.succ_eq_add_one, Prod.mk.injEq, and_true]
    rw [Nat.succ_mul]
    omega

theorem ceil_div_requests (N limit : Nat) (hL : 0 < limit) :
    N / limit + 1 = (if N % limit = 0 then N / limit + 1 else (N + limit - 1) / limit) := by
  split_ifs with h
  · rfl
  · symm
    have h1 := Nat.div_add_mod N limit
    have h2 := Nat.mod_lt N hL
    rw [Nat.mul_comm] at h1
    apply Nat.div_eq_of_lt_le
    · rw [Nat.succ_mul]; omega
    · rw [Nat.succ_mul, Nat.succ_mul]; omega

/-- C1, amended. `Fs.list` with page size `limit` (1000 in the code) over a
synthetic store of `N` entries that all carry the listing prefix, with a handler
that accepts every entry, when the offsets of all page requests fit the 32-bit
offset counter (`N / limit * limit < 2 ^ 32`): with fuel for `N / limit + 1`
rounds `list` returns without error, the handler has been invoked exactly on the
`N` entries in store order, and the page requests are the `N / limit + 1`
requests at offsets `0, limit, 2 * limit, ...`, which is `ceil (N / limit)`
requests, or `N / limit + 1` when `N` is an exact multiple of `limit`. -/
theorem list_synthetic_store {W : Type} (f : Fs W) (limit N : Nat)
    (entry : Nat → ResourceInfoResponse) (dir : Str) (fn : listFn W) (fuel : Nat)
    (w : World W)
    (hstore : f.yd.FlatFileList = syntheticStore N entry)
    (hpfx : ∀ i, i < N → HasPrefix (entry i).Path (f.listPrefix dir) = true)
    (hfn : ∀ name item d s, (fn name item d s).1 = none)
    (hL : 0 < limit) (hL32 : limit < 2 ^ 32) (hN : N / limit * limit < 2 ^ 32)
    (hfuel : N / limit + 1 ≤ fuel) :
    (f.listWith limit dir fn fuel w).1 = some none ∧
    handlerCalls (f.listWith limit dir fn fuel w).2.log =
      handlerCalls w.log ++
        (List.range N).map (fun i => (TrimPrefix (entry i).Path f.diskRoot, entry i)) ∧
    pageRequests (f.listWith limit dir fn fuel w).2.log =
      pageRequests w.log ++ (List.range (N / limit + 1)).map (fun k => (k * limit, limit)) ∧
    (pageRequests (f.listWith limit dir fn fuel w).2.log).length =
      (pageRequests w.log).length +
        (if N % limit = 0 then N / limit + 1 else (N + limit - 1) / limit) := by
  have hle := Nat.div_mul_le_self N limit
  have hlt : N < N / limit * limit + limit := Nat.lt_div_mul_add hL
  obtain ⟨w1, hlog1, hrun1⟩ :=
    listPages_store_full f limit (f.listPrefix dir) fn N entry hstore hfn hpfx hL hL32
      (N / limit) 0 w (by positivity) (by omega) (by omega)
  obtain ⟨w2, hlog2, _, hlast⟩ :=
    listPages_store_step f limit (f.listPrefix dir) fn N entry hstore hfn hpfx hL hL32
      (N / limit * limit) w1
  have hrun : f.listWith limit dir fn fuel w = (some none, w2) := by
    unfold Fs.listWith
    have hf : fuel = (fuel - (N / limit + 1) + 1) + N / limit := by omega
    rw [hf, hrun1, Nat.zero_add, Nat.mod_eq_of_lt hN]
    exact hlast (by omega) _
  rw [hrun]
  dsimp only
  refine ⟨rfl, ?_, ?_, ?_⟩
  · rw [hlog2, hlog1, handlerCalls_append, handlerCalls_append, handlerCalls_pageEvents,
      handlerCalls_storeEvents _ _ _ _ _ 0 (by omega), List.append_assoc, ← List.map_append,
      List.range_eq_range']
    have hcnt : min (N / limit * limit + limit) N - N / limit * limit
        = N - N / limit * limit := by omega
    rw [hcnt]
    have := List.range'_append_1 0 (N / limit * limit) (N - N / limit * limit)
    rw [Nat.zero_add] at this
    rw [this]
    congr 3
    omega
  · rw [hlog2, hlog1, pageRequests_append, pageRequests_append, pageRequests_pageEvents,
      pageRequests_storeEvents, List.append_assoc, List.range_succ]
    simp
  · rw [hlog2, hlog1, pageRequests_append, pageRequests_append, pageRequests_pageEvents,
      pageRequests_storeEvents, ← ceil_div_requests N limit hL]
    simp only [List.length_append, List.length_map, List.length_range, List.length_singleton]
    omega

/-- C1, amended, at 2500 entries and page size 1000: three page requests, at
offsets 0, 1000 and 2000, and 2500 handler invocations. -/
theorem list_synthetic_store_witness :
    ((fsAt (storeClient 2500 numberedEntry) []).list [] acceptAll 3 emptyWorld).1 = some none ∧
    pageRequests ((fsAt (storeClient 2500 numberedEntry) []).list [] acceptAll 3
        emptyWorld).2.log = [(0, 1000), (1000, 1000), (2000, 1000)] ∧
    (handlerCalls ((fsAt (storeClient 2500 numberedEntry) []).list [] acceptAll 3
        emptyWorld).2.log).length = 2500 := by
  have h := list_synthetic_store (fsAt (storeClient 2500 numberedEntry) []) 1000 2500
    numberedEntry [] acceptAll 3 emptyWorld rfl (fun _ _ => rfl) (fun _ _ _ _ => rfl)
    (show 0 < 1000 by norm_num) (show 1000 < 2 ^ 32 by norm_num)
    (show 2500 / 1000 * 1000 < 2 ^ 32 by norm_num) (show 2500 / 1000 + 1 ≤ 3 by norm_num)
  unfold Fs.list
  refine ⟨h.1, ?_, ?_⟩
  · rw [h.2.2.1]
    rfl
  · rw [h.2.1]
    simp [handlerCalls, emptyWorld]

/-! ## Flat listing: the offset counter wraps around -/

/-- When the offset counter wraps: if the store holds `k` full pages and the
offset after them, reduced modulo `2 ^ 32`, points at one more full page, then
every run of `list` that returns has invoked the handler on at least one page
more than the store holds. -/
theorem list_wraps {W : Type} (f : Fs W) (limit N : Nat) (entry : Nat → ResourceInfoResponse)
    (dir : Str) (fn : listFn W)
    (hstore : f.yd.FlatFileList = syntheticStore N entry)
    (hpfx : ∀ i, i < N → HasPrefix (entry i).Path (f.listPrefix dir) = true)
    (hfn : ∀ name item d s, (fn name item d s).1 = none)
    (hL : 0 < limit) (hL32 : limit < 2 ^ 32)
    (k : Nat) (hk : k * limit = N) (h32 : k * limit < 2 ^ 32 + limit)
    (hwrap : (k * limit) % 2 ^ 32 + limit ≤ N)
    (fuel : Nat) (w : World W)
    (hret : (f.listWith limit dir fn fuel w).1 ≠ none) :
    N + limit ≤ (handlerCalls (f.listWith limit dir fn fuel w).2.log).length := by
  unfold Fs.listWith at hret ⊢
  by_cases hf : fuel ≤ k
  · exfalso
    have hfl : fuel * limit ≤ k * limit := Nat.mul_le_mul_right limit hf
    obtain ⟨w1, _, hrun⟩ :=
      listPages_store_full f limit (f.listPrefix dir) fn N entry hstore hfn hpfx hL hL32
        fuel 0 w (by positivity) (by omega) (by omega)
    have h0 := hrun 0
    rw [Nat.zero_add] at h0
    rw [h0] at hret
    exact hret rfl
  · obtain ⟨w1, hlog1, hrun1⟩ :=
      listPages_store_full f limit (f.listPrefix dir) fn N entry hstore hfn hpfx hL hL32
        k 0 w (by positivity) (by omega) (by omega)
    obtain ⟨w2, hlog2, hfull2, _⟩ :=
      listPages_store_step f limit (f.listPrefix dir) fn N entry hstore hfn hpfx hL hL32
        ((0 + k * limit) % 2 ^ 32) w1
    rw [Nat.zero_add] at hlog2 hfull2
    have hfu : fuel = (fuel - (k + 1) + 1) + k := by omega
    obtain ⟨evs, hevs, _⟩ := listPages_errors f limit (f.listPrefix dir) fn (fuel - (k + 1))
      (((k * limit) % 2 ^ 32 + limit) % 2 ^ 32) w2
    rw [hfu, hrun1, Nat.zero_add, hfull2 hwrap, hevs, hlog2, hlog1]
    have hcnt : min (k * limit % 2 ^ 32 + limit) N - k * limit % 2 ^ 32 = limit := by omega
    simp only [handlerCalls_append, List.length_append, handlerCalls_pageEvents,
      handlerCalls_storeEvents _ _ _ _ _ 0 (show 0 + k * limit ≤ N by omega), List.length_map,
      List.length_range', hcnt]
    omega

/-- C1, as the claim states it, fails: the store holds 4294968000 entries, all
directly under `disk:/`, the page size is 1000. After 4294968 full pages the
32-bit offset 4294968000 has wrapped to 704, the page just read was full, and
the loop goes on with a request at offset 704: no run of `list` returns having
invoked the handler only 4294968000 times. -/
theorem list_offset_wraps_around :
    ¬ ∃ fuel : Nat,
      ((fsAt (storeClient 4294968000 numberedEntry) []).list [] acceptAll fuel
        emptyWorld).1 ≠ none ∧
      (handlerCalls ((fsAt (storeClient 4294968000 numberedEntry) []).list [] acceptAll fuel
        emptyWorld).2.log).length ≤ 4294968000 := by
  rintro ⟨fuel, hret, hlen⟩
  unfold Fs.list at hret hlen
  have h := list_wraps (fsAt (storeClient 4294968000 numberedEntry) []) 1000 4294968000
    numberedEntry [] acceptAll rfl (fun _ _ => rfl) (fun _ _ _ _ => rfl)
    (by norm_num) (by norm_num) 4294968 (by norm_num) (by norm_num) (by norm_num) fuel emptyWorld hret
  have h2 : 4294968000 + 1000 ≤ 4294968000 := le_trans h hlen
  omega

/-! ## Flat listing: every page of a run of `list` -/

/-- A run that has not returned after `n` rounds goes on with one more page
request, issued from the world the `n` rounds left behind. -/
theorem listPages_extend {W : Type} (f : Fs W) (limit : Nat) (pfx : Str) (fn : listFn W)
    (n : Nat) :
    ∀ (offset : Nat) (w : World W), (f.listPages limit pfx fn n offset w).1 = none →
      ∃ offset1, f.listPages limit pfx fn (n + 1) offset w =
        f.listPages limit pfx fn 1 offset1 (f.listPages limit pfx fn n offset w).2 := by
  induction n with
  | zero => intro offset w _; exact ⟨offset, rfl⟩
  | succ n ih =>
    intro offset w h
    have h1 := listPages_succ f limit pfx fn (n + 1) offset w
    have h2 := listPages_succ f limit pfx fn n offset w
    rcases hreq : f.yd.callFlatFileList offset limit w with ⟨resp, w1⟩
    rw [hreq] at h1 h2
    cases resp with
    | error err =>
      dsimp only at h2
      rw [h2] at h
      cases h
    | ok items =>
      dsimp only at h1 h2
      rcases hit : f.listItems pfx fn items w1 with ⟨ret, w2⟩
      rw [hit] at h1 h2
      cases ret with
      | some err =>
        dsimp only at h2
        rw [h2] at h
        cases h
      | none =>
        dsimp only at h1 h2
        by_cases hlt : items.length % 2 ^ 32 < limit
        · rw [if_pos hlt] at h2
          rw [h2] at h
          cases h
        · rw [if_neg hlt] at h1 h2
          rw [h2] at h
          obtain ⟨offset1, hext⟩ := ih _ w2 h
          exact ⟨offset1, by rw [h1, h2, hext]⟩

/-- One round of the loop of `list`: the request, then the handler on the
entries of the page that carry the prefix, in page order, up to and including
the first one it rejects. -/
theorem listPages_one {W : Type} (f : Fs W) (limit : Nat) (pfx : Str) (fn : listFn W)
    (offset : Nat) (w : World W) :
    (∀ err, (f.yd.FlatFileList offset limit w.st).1 = Except.error err →
      (f.listPages limit pfx fn 1 offset w).1 = some (some err) ∧
      (f.listPages limit pfx fn 1 offset w).2.log = w.log ++ [Event.flatList offset limit]) ∧
    (∀ items, (f.yd.FlatFileList offset limit w.st).1 = Except.ok items →
      ∃ rets : List (Option GoError),
        (f.listPages limit pfx fn 1 offset w).2.log =
          w.log ++ Event.flatList offset limit ::
            List.zipWith
              (fun it ret => Event.handler (TrimPrefix it.Path f.diskRoot) it false ret)
              (items.filter (fun it => HasPrefix it.Path pfx)) rets ∧
        ((rets = List.replicate (items.filter (fun it => HasPrefix it.Path pfx)).length none ∧
            (f.listPages limit pfx fn 1 offset w).1 =
              (if items.length % 2 ^ 32 < limit then some none else none)) ∨
          ∃ k e, k < (items.filter (fun it => HasPrefix it.Path pfx)).length ∧
            rets = List.replicate k none ++ [some e] ∧
            (f.listPages limit pfx fn 1 offset w).1 = some (some e))) := by
  have h1 := listPages_succ f limit pfx fn 0 offset w
  rw [Nat.zero_add] at h1
  unfold Client.callFlatFileList at h1
  rcases hreq : f.yd.FlatFileList offset limit w.st with ⟨resp, s⟩
  rw [hreq] at h1
  constructor
  · intro err herr
    dsimp only at herr
    subst herr
    dsimp only at h1
    rw [h1]
    exact ⟨rfl, rfl⟩
  · intro items hitems
    dsimp only at hitems
    subst hitems
    dsimp only at h1
    obtain ⟨rets, hlen, hlog, hnone, hsome⟩ :=
      listItems_log f pfx fn items ⟨s, w.log ++ [Event.flatList offset limit]⟩
    rcases hit : f.listItems pfx fn items ⟨s, w.log ++ [Event.flatList offset limit]⟩
      with ⟨ret, w2⟩
    rw [hit] at h1 hlog hnone hsome
    dsimp only at hlog hnone hsome
    refine ⟨rets, ?_, ?_⟩
    · cases ret with
      | some err =>
        dsimp only at h1
        rw [h1]
        dsimp only
        rw [hlog]
        simp
      | none =>
        dsimp only at h1
        rw [h1]
        split_ifs
        · dsimp only
          rw [hlog]
          simp
        · rw [Fs.listPages]
          dsimp only
          rw [hlog]
          simp
    · cases ret with
      | some err =>
        right
        obtain ⟨k, hk⟩ := hsome err rfl
        refine ⟨k, err, ?_, hk, ?_⟩
        · rw [hk] at hlen
          simp at hlen
          omega
        · dsimp only at h1
          rw [h1]
      | none =>
        left
        refine ⟨hnone rfl, ?_⟩
        dsimp only at h1
        rw [h1]
        split_ifs
        · rfl
        · rw [Fs.listPages]

/-- C9, amended. For every listing directory `dir` and every page of a run of
`Fs.list` (any page size, client, handler and remote state): while the run has
not returned after `n` rounds, round `n + 1` issues one page request; if the
request fails, `list` returns its error; otherwise the handler is invoked, in
page order, exactly on the entries of the returned page whose path has the
prefix (`diskRoot`, plus `dir` + `/` when `dir` is not empty), each accepted,
or up to and including the first entry it rejects, whose error `list` then
returns; the name passed is the entry's path with `diskRoot` stripped, which is
the path with the prefix stripped preceded by `dir` + `/` when `dir` is not
empty. -/
theorem list_page_prefix_filter {W : Type} (f : Fs W) (limit : Nat) (dir : Str)
    (fn : listFn W) (n : Nat) (w : World W)
    (hrun : (f.listWith limit dir fn n w).1 = none) :
    ∃ offset : Nat,
      (∀ err, (f.yd.FlatFileList offset limit (f.listWith limit dir fn n w).2.st).1
          = Except.error err →
        (f.listWith limit dir fn (n + 1) w).1 = some (some err) ∧
        (f.listWith limit dir fn (n + 1) w).2.log =
          (f.listWith limit dir fn n w).2.log ++ [Event.flatList offset limit]) ∧
      (∀ items, (f.yd.FlatFileList offset limit (f.listWith limit dir fn n w).2.st).1
          = Except.ok items →
        ∃ rets : List (Option GoError),
          (f.listWith limit dir fn (n + 1) w).2.log =
            (f.listWith limit dir fn n w).2.log ++ Event.flatList offset limit ::
              List.zipWith
                (fun it ret => Event.handler (TrimPrefix it.Path f.diskRoot) it false ret)
                (items.filter (fun it => HasPrefix it.Path (f.listPrefix dir))) rets ∧
          ((rets = List.replicate
                (items.filter (fun it => HasPrefix it.Path (f.listPrefix dir))).length none ∧
              (f.listWith limit dir fn (n + 1) w).1 =
                (if items.length % 2 ^ 32 < limit then some none else none)) ∨
            ∃ k e, k < (items.filter (fun it => HasPrefix it.Path (f.listPrefix dir))).length ∧
              rets = List.replicate k none ++ [some e] ∧
              (f.listWith limit dir fn (n + 1) w).1 = some (some e))) ∧
      (∀ path : Str, HasPrefix path (f.listPrefix dir) = true →
        TrimPrefix path f.diskRoot =
          (if dir ≠ [] then dir ++ "/".toList else []) ++
            TrimPrefix path (f.listPrefix dir)) := by
  unfold Fs.listWith at hrun ⊢
  obtain ⟨offset, hext⟩ := listPages_extend f limit (f.listPrefix dir) fn n 0 w hrun
  have hone := listPages_one f limit (f.listPrefix dir) fn offset
    (f.listPages limit (f.listPrefix dir) fn n 0 w).2
  rw [hext]
  refine ⟨offset, hone.1, hone.2, ?_⟩
  intro path hp
  unfold Fs.listPrefix at hp ⊢
  by_cases hd : dir = []
  · simp [hd]
  · rw [if_pos hd] at hp ⊢
    rw [if_pos hd]
    exact TrimPrefix_listPrefix f.diskRoot dir path hp

/-- C9, amended, on the first page of a listing of directory `a` whose page
holds `disk:/a/b` and `disk:/c`: the handler is invoked on `disk:/a/b` only,
under the name `a/b`. -/
theorem list_page_prefix_filter_witness :
    ∃ offset : Nat,
      ((fsAt (pagedClient (fun _ _ => [fileEntry "disk:/a/b".toList,
          fileEntry "disk:/c".toList])) []).listWith 1000 "a".toList acceptAll 1
          emptyWorld).2.log
        = [Event.flatList offset 1000,
            Event.handler "a/b".toList (fileEntry "disk:/a/b".toList) false none] := by
  obtain ⟨offset, _, hok, _⟩ :=
    list_page_prefix_filter
      (fsAt (pagedClient (fun _ _ => [fileEntry "disk:/a/b".toList,
        fileEntry "disk:/c".toList])) []) 1000 "a".toList acceptAll 0 emptyWorld rfl
  obtain ⟨rets, hlog, hcase⟩ :=
    hok [fileEntry "disk:/a/b".toList, fileEntry "disk:/c".toList] rfl
  refine ⟨offset, ?_⟩
  rw [hlog]
  rcases hcase with ⟨hrets, _⟩ | ⟨k, e, _, _, hret⟩
  · rw [hrets]
    rfl
  · have hv : ((fsAt (pagedClient (fun _ _ => [fileEntry "disk:/a/b".toList,
        fileEntry "disk:/c".toList])) []).listWith 1000 "a".toList acceptAll (0 + 1)
        emptyWorld).1 = some none := rfl
    rw [hv] at hret
    cases hret

end Yandex
